import Mathlib

/-!
Verification of the PhotoSmith image filter engine.

The filter algorithms are embedded from `src/src/core/filters/ImageFilters.cpp`.
The pixel buffer entity (`Image_Class.h`) and the `HistoryManager` are not part of
the provided sources; they are modelled from the specification (sections 3, 4.1
and 4.4), as documented on their declarations.

Modelling conventions, stated once:
- Machine `int` arithmetic is modelled on `Nat`/`Int`; samples are stored through
  an 8-bit cast, modelled as `% 256`.
- The luma expression of edge detection,
  `(int)(0.299 * r + 0.587 * g + 0.114 * b)`, is modelled bit-exactly:
  `roundDoubleF` implements IEEE round-to-nearest-even on 53-bit mantissas over
  integers scaled by 2^120, with the three constants taken as the exact values
  of the corresponding double literals. `(int)std::sqrt(n)` on a nonnegative
  integer `n` below 2^52 is modelled as `Nat.sqrt`, which agrees with correctly
  rounded double square roots on that range.
- Float-constant pixel expressions of cancelable filters about which only the
  cancellation contract is proved (enhance-sunlight, double-vision) are
  modelled as rational truncations such as `(14 * v) / 10`; these can differ
  from the double evaluation by one on a few sample values, which none of the
  theorems below depends on. The resize ratio is modelled as exact rational
  truncation, which agrees with the double computation whenever the ratio is
  integral, in particular on the identity case that the resize theorem
  evaluates.
- Per-pixel computations depending on a random generator or on compound
  floating-point geometry (TV noise, fish-eye radial remap) are taken as
  explicit parameters; the properties proved about them hold for every
  instantiation, hence for the behaviour of the compiled code.
-/

namespace PhotoSmith

/-- Pixel Buffer. Modelled from the spec: the `Image` entity (file
`Image_Class.h`) is not under `src/`; spec section 3 describes it as width,
height, a fixed channel count of 3, and an 8-bit sample for every in-range
coordinate, with deep-copy value semantics. We model the sample store as a
total function on coordinates; algorithms only ever read in-range coordinates.
Construction zero-fills (spec section 4.1 leaves the fill to the implementer
but requires it to be deterministic and documented; we document zero). -/
structure Image where
  width : Nat
  height : Nat
  data : Nat → Nat → Nat → Nat

/-- Read one sample, as `Image::operator()` and `Image::getPixel`. -/
def Image.get (img : Image) (x y c : Nat) : Nat := img.data x y c

/-- Write one sample, as `Image::setPixel`; the value is cast to an 8-bit
sample, modelled as `% 256`. -/
def Image.setPixel (img : Image) (x y c v : Nat) : Image :=
  { img with
    data := fun x' y' c' =>
      if x' = x ∧ y' = y ∧ c' = c then v % 256 else img.data x' y' c' }

/-- Construction by dimensions, zero-filled (see the comment on `Image`). -/
def Image.mkFresh (w h : Nat) : Image := ⟨w, h, fun _ _ _ => 0⟩

/-- Well-formedness of a pixel buffer: every in-range sample is an 8-bit value.
Every buffer produced by the real program satisfies this. -/
def Image.Wf (img : Image) : Prop :=
  ∀ x < img.width, ∀ y < img.height, ∀ c < 3, img.get x y c ≤ 255

/-- Byte-identical buffers: same dimensions and same sample at every in-range
coordinate (spec section 3: a buffer is exactly its dimensions plus its
`width*height*3` samples). -/
def Image.identical (a b : Image) : Prop :=
  a.width = b.width ∧ a.height = b.height ∧
    ∀ x < a.width, ∀ y < a.height, ∀ c < 3, a.get x y c = b.get x y c

instance (img : Image) : Decidable img.Wf :=
  decidable_of_iff
    (∀ x < img.width, ∀ y < img.height, ∀ c < 3, img.get x y c ≤ 255) Iff.rfl

instance (a b : Image) : Decidable (a.identical b) :=
  decidable_of_iff
    (a.width = b.width ∧ a.height = b.height ∧
      ∀ x < a.width, ∀ y < a.height, ∀ c < 3, a.get x y c = b.get x y c) Iff.rfl

/-- Channel projection of an (r, g, b) triple. -/
def chan (c : Nat) (p : Nat × Nat × Nat) : Nat :=
  if c = 0 then p.1 else if c = 1 then p.2.1 else p.2.2

@[simp] theorem chan_triple (c v : Nat) : chan c (v, v, v) = v := by
  unfold chan
  split_ifs <;> rfl

theorem chan_zero (p : Nat × Nat × Nat) : chan 0 p = p.1 := rfl

theorem chan_one (p : Nat × Nat × Nat) : chan 1 p = p.2.1 := by simp [chan]

theorem chan_two (p : Nat × Nat × Nat) : chan 2 p = p.2.2 := by simp [chan]

/-- Write the three channels of one pixel, as the back-to-back
`setPixel(x, y, 0, _); setPixel(x, y, 1, _); setPixel(x, y, 2, _)`
sequences of the source. -/
def Image.setRGB (img : Image) (x y : Nat) (p : Nat × Nat × Nat) : Image :=
  ((img.setPixel x y 0 p.1).setPixel x y 1 p.2.1).setPixel x y 2 p.2.2

/-- Read the three channels of one pixel. -/
def Image.getRGB (img : Image) (x y : Nat) : Nat × Nat × Nat :=
  (img.get x y 0, img.get x y 1, img.get x y 2)

theorem Image.getRGB_def (img : Image) (x y : Nat) :
    img.getRGB x y = (img.get x y 0, img.get x y 1, img.get x y 2) := rfl

/-- A counted `for` loop, `for (i = 0; i < n; i++) acc = f acc i`. -/
def foldRange (n : Nat) (f : α → Nat → α) (init : α) : α :=
  (List.range n).foldl f init

@[simp] theorem foldRange_zero (f : α → Nat → α) (a : α) : foldRange 0 f a = a := rfl

theorem foldRange_succ (n : Nat) (f : α → Nat → α) (a : α) :
    foldRange (n + 1) f a = f (foldRange n f a) n := by
  simp [foldRange, List.range_succ]

@[simp] theorem Image.width_setPixel (img : Image) (x y c v : Nat) :
    (img.setPixel x y c v).width = img.width := rfl

@[simp] theorem Image.height_setPixel (img : Image) (x y c v : Nat) :
    (img.setPixel x y c v).height = img.height := rfl

@[simp] theorem Image.width_setRGB (img : Image) (x y : Nat) (p : Nat × Nat × Nat) :
    (img.setRGB x y p).width = img.width := rfl

@[simp] theorem Image.height_setRGB (img : Image) (x y : Nat) (p : Nat × Nat × Nat) :
    (img.setRGB x y p).height = img.height := rfl

theorem Image.get_setPixel (img : Image) (x y c v x' y' c' : Nat) :
    (img.setPixel x y c v).get x' y' c' =
      if x' = x ∧ y' = y ∧ c' = c then v % 256 else img.get x' y' c' := rfl

theorem Image.get_setRGB (img : Image) (x y : Nat) (p : Nat × Nat × Nat)
    (x' y' c' : Nat) :
    (img.setRGB x y p).get x' y' c' =
      if x' = x ∧ y' = y ∧ c' < 3 then chan c' p % 256 else img.get x' y' c' := by
  simp only [Image.setRGB, Image.get_setPixel, chan]
  by_cases hx : x' = x <;> by_cases hy : y' = y <;> simp_all <;>
    rcases c' with _ | _ | _ | c' <;> simp <;>
    rw [if_neg (by omega)]

theorem foldRange_preserve {α : Type} (P : α → Prop) (n : Nat) (f : α → Nat → α)
    (h : ∀ a i, P a → P (f a i)) (a : α) (hP : P a) : P (foldRange n f a) := by
  induction n with
  | zero => simpa using hP
  | succ n ih => rw [foldRange_succ]; exact h _ _ ih

/-- Value written for channel `c` by a conditional pixel write (`none` models a
loop iteration whose guard skipped the `setPixel` calls). -/
def optVal (o : Option (Nat × Nat × Nat)) (c : Nat) (fallback : Nat) : Nat :=
  match o with
  | some p => chan c p % 256
  | none => fallback

/-- One pass of an inner `for (x ...)` loop writing row `yr` from a fixed
source, with an optional per-pixel guard. -/
def renderRow (x0 nx yr : Nat) (pix : Nat → Nat → Option (Nat × Nat × Nat))
    (canvas : Image) : Image :=
  foldRange nx (fun im2 xi =>
    match pix (x0 + xi) yr with
    | some p => im2.setRGB (x0 + xi) yr p
    | none => im2) canvas

/-- A `for (y ...) for (x ...)` nest writing the rectangle
`[x0, x0+nx) x [y0, y0+ny)` from a fixed source. -/
def renderRect (x0 nx y0 ny : Nat) (pix : Nat → Nat → Option (Nat × Nat × Nat))
    (canvas : Image) : Image :=
  foldRange ny (fun im yi => renderRow x0 nx (y0 + yi) pix im) canvas

/-- One pass of an inner `for (y ...)` loop writing column `xc`, for sources
whose outer loop ranges over `x`. -/
def renderColumn (y0 ny xc : Nat) (pix : Nat → Nat → Option (Nat × Nat × Nat))
    (canvas : Image) : Image :=
  foldRange ny (fun im2 yi =>
    match pix xc (y0 + yi) with
    | some p => im2.setRGB xc (y0 + yi) p
    | none => im2) canvas

/-- A `for (x ...) for (y ...)` nest (outer loop over `x`), as used by
`applyDarkAndLight`. -/
def renderRectXY (x0 nx y0 ny : Nat) (pix : Nat → Nat → Option (Nat × Nat × Nat))
    (canvas : Image) : Image :=
  foldRange nx (fun im xi => renderColumn y0 ny (x0 + xi) pix im) canvas

@[simp] theorem renderRow_width (x0 nx yr : Nat) (pix : Nat → Nat → Option (Nat × Nat × Nat))
    (canvas : Image) : (renderRow x0 nx yr pix canvas).width = canvas.width := by
  unfold renderRow
  exact foldRange_preserve (fun (im : Image) => im.width = canvas.width) _ _
    (fun a i ha => by cases pix (x0 + i) yr <;> simpa using ha) _ rfl

@[simp] theorem renderRow_height (x0 nx yr : Nat) (pix : Nat → Nat → Option (Nat × Nat × Nat))
    (canvas : Image) : (renderRow x0 nx yr pix canvas).height = canvas.height := by
  unfold renderRow
  exact foldRange_preserve (fun (im : Image) => im.height = canvas.height) _ _
    (fun a i ha => by cases pix (x0 + i) yr <;> simpa using ha) _ rfl

@[simp] theorem renderRect_width (x0 nx y0 ny : Nat) (pix : Nat → Nat → Option (Nat × Nat × Nat))
    (canvas : Image) : (renderRect x0 nx y0 ny pix canvas).width = canvas.width := by
  unfold renderRect
  exact foldRange_preserve (fun (im : Image) => im.width = canvas.width) _ _
    (fun a i ha => by simpa using ha) _ rfl

@[simp] theorem renderRect_height (x0 nx y0 ny : Nat) (pix : Nat → Nat → Option (Nat × Nat × Nat))
    (canvas : Image) : (renderRect x0 nx y0 ny pix canvas).height = canvas.height := by
  unfold renderRect
  exact foldRange_preserve (fun (im : Image) => im.height = canvas.height) _ _
    (fun a i ha => by simpa using ha) _ rfl

@[simp] theorem renderColumn_width (y0 ny xc : Nat) (pix : Nat → Nat → Option (Nat × Nat × Nat))
    (canvas : Image) : (renderColumn y0 ny xc pix canvas).width = canvas.width := by
  unfold renderColumn
  exact foldRange_preserve (fun (im : Image) => im.width = canvas.width) _ _
    (fun a i ha => by cases pix xc (y0 + i) <;> simpa using ha) _ rfl

@[simp] theorem renderColumn_height (y0 ny xc : Nat) (pix : Nat → Nat → Option (Nat × Nat × Nat))
    (canvas : Image) : (renderColumn y0 ny xc pix canvas).height = canvas.height := by
  unfold renderColumn
  exact foldRange_preserve (fun (im : Image) => im.height = canvas.height) _ _
    (fun a i ha => by cases pix xc (y0 + i) <;> simpa using ha) _ rfl

@[simp] theorem renderRectXY_width (x0 nx y0 ny : Nat) (pix : Nat → Nat → Option (Nat × Nat × Nat))
    (canvas : Image) : (renderRectXY x0 nx y0 ny pix canvas).width = canvas.width := by
  unfold renderRectXY
  exact foldRange_preserve (fun (im : Image) => im.width = canvas.width) _ _
    (fun a i ha => by simpa using ha) _ rfl

@[simp] theorem renderRectXY_height (x0 nx y0 ny : Nat) (pix : Nat → Nat → Option (Nat × Nat × Nat))
    (canvas : Image) : (renderRectXY x0 nx y0 ny pix canvas).height = canvas.height := by
  unfold renderRectXY
  exact foldRange_preserve (fun (im : Image) => im.height = canvas.height) _ _
    (fun a i ha => by simpa using ha) _ rfl

theorem renderRow_get (x0 nx yr : Nat) (pix : Nat → Nat → Option (Nat × Nat × Nat))
    (canvas : Image) (x y c : Nat) :
    (renderRow x0 nx yr pix canvas).get x y c =
      if x0 ≤ x ∧ x < x0 + nx ∧ y = yr ∧ c < 3 then
        optVal (pix x yr) c (canvas.get x y c)
      else canvas.get x y c := by
  induction nx with
  | zero => simp only [renderRow, foldRange_zero]; rw [if_neg (by omega)]
  | succ n ih =>
    unfold renderRow at ih ⊢
    rw [foldRange_succ]
    by_cases hx : x = x0 + n ∧ y = yr ∧ c < 3
    · obtain ⟨hx1, hy1, hc1⟩ := hx
      rcases hpix : pix (x0 + n) yr with _ | p
      · simp only [hpix]
        rw [ih, if_neg (by omega), if_pos (by omega), hx1, hy1, hpix]
        rfl
      · simp only [hpix]
        rw [Image.get_setRGB, if_pos (by omega), if_pos (by omega), hx1, hy1, hpix]
        simp [optVal, chan, hc1]
    · rcases hpix : pix (x0 + n) yr with _ | p
      · simp only [hpix]
        rw [ih]
        by_cases hin : x0 ≤ x ∧ x < x0 + n ∧ y = yr ∧ c < 3
        · rw [if_pos hin, if_pos (by omega)]
        · rw [if_neg hin, if_neg (by omega)]
      · simp only [hpix]
        rw [Image.get_setRGB, if_neg (by omega), ih]
        by_cases hin : x0 ≤ x ∧ x < x0 + n ∧ y = yr ∧ c < 3
        · rw [if_pos hin, if_pos (by omega)]
        · rw [if_neg hin, if_neg (by omega)]

theorem renderRect_get (x0 nx y0 ny : Nat) (pix : Nat → Nat → Option (Nat × Nat × Nat))
    (canvas : Image) (x y c : Nat) :
    (renderRect x0 nx y0 ny pix canvas).get x y c =
      if x0 ≤ x ∧ x < x0 + nx ∧ y0 ≤ y ∧ y < y0 + ny ∧ c < 3 then
        optVal (pix x y) c (canvas.get x y c)
      else canvas.get x y c := by
  induction ny with
  | zero => simp only [renderRect, foldRange_zero]; rw [if_neg (by omega)]
  | succ n ih =>
    unfold renderRect at ih ⊢
    rw [foldRange_succ, renderRow_get, ih]
    by_cases hyr : y = y0 + n
    · by_cases hx : x0 ≤ x ∧ x < x0 + nx ∧ c < 3
      · rw [if_pos (by omega), if_neg (by omega), if_pos (by omega), hyr]
      · rw [if_neg (by omega), if_neg (by omega), if_neg (by omega)]
    · by_cases hin : x0 ≤ x ∧ x < x0 + nx ∧ y0 ≤ y ∧ y < y0 + n ∧ c < 3
      · rw [if_neg (by omega), if_pos hin, if_pos (by omega)]
      · rw [if_neg (by omega), if_neg hin, if_neg (by omega)]

/-- An in-place pixel pass over one row: for each `x` the three channels at
`(x, y)` are read and then overwritten, exactly as the row bodies of the
in-place cancelable filters do. -/
def pixRow (w : Nat) (f : Nat → Nat → Nat × Nat × Nat → Nat × Nat × Nat)
    (im : Image) (y : Nat) : Image :=
  foldRange w (fun im2 x => im2.setRGB x y (f x y (im2.getRGB x y))) im

@[simp] theorem pixRow_width (w : Nat) (f : Nat → Nat → Nat × Nat × Nat → Nat × Nat × Nat)
    (im : Image) (y : Nat) : (pixRow w f im y).width = im.width := by
  unfold pixRow
  exact foldRange_preserve (fun (a : Image) => a.width = im.width) _ _
    (fun a i ha => by simpa using ha) _ rfl

@[simp] theorem pixRow_height (w : Nat) (f : Nat → Nat → Nat × Nat × Nat → Nat × Nat × Nat)
    (im : Image) (y : Nat) : (pixRow w f im y).height = im.height := by
  unfold pixRow
  exact foldRange_preserve (fun (a : Image) => a.height = im.height) _ _
    (fun a i ha => by simpa using ha) _ rfl

theorem pixRow_get (w : Nat) (f : Nat → Nat → Nat × Nat × Nat → Nat × Nat × Nat)
    (im : Image) (y : Nat) (x' y' c' : Nat) :
    (pixRow w f im y).get x' y' c' =
      if x' < w ∧ y' = y ∧ c' < 3 then chan c' (f x' y (im.getRGB x' y)) % 256
      else im.get x' y' c' := by
  induction w generalizing x' y' c' with
  | zero => simp [pixRow]
  | succ n ih =>
    unfold pixRow at ih ⊢
    rw [foldRange_succ]
    have hread : (foldRange n (fun im2 x => im2.setRGB x y (f x y (im2.getRGB x y))) im).getRGB n y
        = im.getRGB n y := by
      rw [Image.getRGB_def, Image.getRGB_def]
      have h0 := ih n y 0
      have h1 := ih n y 1
      have h2 := ih n y 2
      rw [if_neg (by omega)] at h0
      rw [if_neg (by omega)] at h1
      rw [if_neg (by omega)] at h2
      rw [h0, h1, h2]
    rw [Image.get_setRGB, hread]
    by_cases hx : x' = n ∧ y' = y ∧ c' < 3
    · obtain ⟨hx1, hy1, hc1⟩ := hx
      rw [if_pos (by exact ⟨hx1, hy1, hc1⟩), if_pos (by omega), hx1]
    · rw [if_neg (by omega), ih]
      by_cases hin : x' < n ∧ y' = y ∧ c' < 3
      · rw [if_pos hin, if_pos (by omega)]
      · rw [if_neg hin, if_neg (by omega)]

/-- An in-place pixel pass over one column (outer loop over `x`), as in
`applyInfrared`. -/
def pixColumn (h : Nat) (f : Nat → Nat → Nat × Nat × Nat → Nat × Nat × Nat)
    (im : Image) (x : Nat) : Image :=
  foldRange h (fun im2 y => im2.setRGB x y (f x y (im2.getRGB x y))) im

/-- The row loop of a cancelable operation (spec section 4.3): before each unit
of work the cancellation token is polled; if it reads set, the working buffer is
overwritten with the pre-operation snapshot and the operation returns. The token
is modelled as a function of the poll index. This is
`ImageFilters::checkCancellation` inlined at the top of each row loop. -/
def runRowsAux (rowFn : Image → Nat → Image) (cancel : Nat → Bool) (pre : Image) :
    Nat → Nat → Image → Image
  | _, 0, im => im
  | y, rem + 1, im =>
    if cancel y then pre else runRowsAux rowFn cancel pre (y + 1) rem (rowFn im y)

/-- The same row loop with no cancellation polls, used to state what a completed
run computes. -/
def runRowsPlain (rowFn : Image → Nat → Image) : Nat → Nat → Image → Image
  | _, 0, im => im
  | y, rem + 1, im => runRowsPlain rowFn (y + 1) rem (rowFn im y)

theorem runRowsAux_cancelled (rowFn : Image → Nat → Image) (cancel : Nat → Bool)
    (pre : Image) (y rem : Nat) (im : Image)
    (h : ∃ k, k < rem ∧ cancel (y + k) = true) :
    runRowsAux rowFn cancel pre y rem im = pre := by
  induction rem generalizing y im with
  | zero => obtain ⟨k, hk, _⟩ := h; omega
  | succ n ih =>
    unfold runRowsAux
    by_cases hc : cancel y
    · simp [hc]
    · simp only [hc, if_false, Bool.false_eq_true]
      apply ih
      obtain ⟨k, hk, hck⟩ := h
      rcases k with _ | k
      · simp at hck; rw [hck] at hc; simp at hc
      · exact ⟨k, by omega, by rw [show y + 1 + k = y + (k + 1) by omega]; exact hck⟩

theorem runRowsAux_completes (rowFn : Image → Nat → Image) (cancel : Nat → Bool)
    (pre : Image) (y rem : Nat) (im : Image)
    (h : ∀ k < rem, cancel (y + k) = false) :
    runRowsAux rowFn cancel pre y rem im = runRowsPlain rowFn y rem im := by
  induction rem generalizing y im with
  | zero => rfl
  | succ n ih =>
    unfold runRowsAux runRowsPlain
    have h0 : cancel y = false := by simpa using h 0 (by omega)
    simp only [h0, Bool.false_eq_true, if_false]
    exact ih (y + 1) (rowFn im y) fun k hk => by
      rw [show y + 1 + k = y + (k + 1) by omega]; exact h (k + 1) (by omega)

theorem runRowsPlain_pixRow_get (w : Nat)
    (f : Nat → Nat → Nat × Nat × Nat → Nat × Nat × Nat)
    (y0 rem : Nat) (im : Image) (x y c : Nat) :
    (runRowsPlain (pixRow w f) y0 rem im).get x y c =
      if x < w ∧ y0 ≤ y ∧ y < y0 + rem ∧ c < 3 then
        chan c (f x y (im.getRGB x y)) % 256
      else im.get x y c := by
  induction rem generalizing y0 im with
  | zero =>
    rw [show runRowsPlain (pixRow w f) y0 0 im = im from rfl, if_neg (by omega)]
  | succ n ih =>
    unfold runRowsPlain
    rw [ih]
    by_cases hy : y = y0
    · subst hy
      rw [if_neg (by omega), pixRow_get]
      by_cases hx : x < w ∧ c < 3
      · rw [if_pos (by omega), if_pos (by omega)]
      · rw [if_neg (by omega), if_neg (by omega)]
    · by_cases hin : x < w ∧ y0 + 1 ≤ y ∧ y < y0 + 1 + n ∧ c < 3
      · rw [if_pos hin]
        have hrgb : (pixRow w f im y0).getRGB x y = im.getRGB x y := by
          rw [Image.getRGB_def, Image.getRGB_def, pixRow_get, pixRow_get, pixRow_get,
            if_neg (by omega), if_neg (by omega), if_neg (by omega)]
        rw [hrgb, if_pos (by omega)]
      · rw [if_neg hin, pixRow_get, if_neg (by omega), if_neg (by omega)]

theorem runRowsPlain_width (rowFn : Image → Nat → Image)
    (hFn : ∀ im y, (rowFn im y).width = im.width) (y rem : Nat) (im : Image) :
    (runRowsPlain rowFn y rem im).width = im.width := by
  induction rem generalizing y im with
  | zero => rfl
  | succ n ih => unfold runRowsPlain; rw [ih, hFn]

theorem runRowsPlain_height (rowFn : Image → Nat → Image)
    (hFn : ∀ im y, (rowFn im y).height = im.height) (y rem : Nat) (im : Image) :
    (runRowsPlain rowFn y rem im).height = im.height := by
  induction rem generalizing y im with
  | zero => rfl
  | succ n ih => unfold runRowsPlain; rw [ih, hFn]

/-- Embedded from `ImageFilters::applyGrayscale` (ImageFilters.cpp): in place,
row by row, polling the cancellation token before each row; each pixel becomes
`gray = (r + g + b) / 3` on all three channels. -/
def applyGrayscale (currentImage preFilterImage : Image)
    (cancelRequested : Nat → Bool) : Image :=
  runRowsAux
    (pixRow currentImage.width fun _ _ p =>
      let gray := (p.1 + p.2.1 + p.2.2) / 3
      (gray, gray, gray))
    cancelRequested preFilterImage 0 currentImage.height currentImage

/-- Embedded from `ImageFilters::applyBlackAndWhite`: in place, row by row with
per-row cancellation polls; `bw = (gray > 127) ? 255 : 0`. -/
def applyBlackAndWhite (currentImage preFilterImage : Image)
    (cancelRequested : Nat → Bool) : Image :=
  runRowsAux
    (pixRow currentImage.width fun _ _ p =>
      let gray := (p.1 + p.2.1 + p.2.2) / 3
      let bw := if gray > 127 then 255 else 0
      (bw, bw, bw))
    cancelRequested preFilterImage 0 currentImage.height currentImage

/-- Embedded from `ImageFilters::applyInvert`: in place, row by row with
per-row cancellation polls; each channel becomes `255 - v`. -/
def applyInvert (currentImage preFilterImage : Image)
    (cancelRequested : Nat → Bool) : Image :=
  runRowsAux
    (pixRow currentImage.width fun _ _ p => (255 - p.1, 255 - p.2.1, 255 - p.2.2))
    cancelRequested preFilterImage 0 currentImage.height currentImage

/-- Embedded from `ImageFilters::applyPurpleFilter`: in place, row by row with
per-row cancellation polls; `r = min(255, (int)(r * 1.3))`,
`g = max(0, (int)(g * 0.5))`, `b = min(255, (int)(b * 1.3))`, with the double
constants modelled exactly as rational truncation. -/
def applyPurpleFilter (currentImage preFilterImage : Image)
    (cancelRequested : Nat → Bool) : Image :=
  runRowsAux
    (pixRow currentImage.width fun _ _ p =>
      (min 255 ((13 * p.1) / 10), p.2.1 / 2, min 255 ((13 * p.2.2) / 10)))
    cancelRequested preFilterImage 0 currentImage.height currentImage

/-- Embedded from `ImageFilters::applyTVFilter`: in place, row by row with
per-row cancellation polls. The per-pixel value (scanline darkening,
brightness-dependent float color shifts, and mt19937 noise) is taken as the
parameter `tvPixel`; everything proved below holds for every instantiation of
it, hence for the compiled behaviour with its time-based seed. -/
def applyTVFilter (tvPixel : Nat → Nat → Nat × Nat × Nat → Nat × Nat × Nat)
    (currentImage preFilterImage : Image) (cancelRequested : Nat → Bool) : Image :=
  runRowsAux (pixRow currentImage.width tvPixel) cancelRequested preFilterImage 0
    currentImage.height currentImage

/-- Embedded from `ImageFilters::applyInfrared`: in place, column by column
(the outer loop is over `x`), polling the cancellation token before each
column; `R = 255`, `G = B = (int)(255 - (r + g + b) / 3.0f)`, the float
expression modelled exactly as `(765 - (r + g + b)) / 3`. -/
def applyInfrared (currentImage preFilterImage : Image)
    (cancelRequested : Nat → Bool) : Image :=
  runRowsAux
    (pixColumn currentImage.height fun _ _ p =>
      let inverted := (765 - (p.1 + p.2.1 + p.2.2)) / 3
      (255, inverted, inverted))
    cancelRequested preFilterImage 0 currentImage.width currentImage

/-- Embedded from the cancelable overload of `ImageFilters::applyDoubleVision`:
writes a fresh output buffer row by row with per-row cancellation polls, reading
the unchanged input; `nx = min(x + max(0, offset), width - 1)` and the blend
`(int)(v1 * 0.6 + v2 * 0.4)` is modelled as the rational truncation
`(6 * v1 + 4 * v2) / 10`, with `+ 25` and a 255 clamp on the red channel (the
truncation can differ from the double evaluation by one on a few pairs; the
cancellation property proved about this filter is independent of the per-pixel
arithmetic). -/
def applyDoubleVision (currentImage preFilterImage : Image)
    (cancelRequested : Nat → Bool) (offset : Int) : Image :=
  let off : Nat := offset.toNat
  let w := currentImage.width
  runRowsAux
    (pixRow w fun x y _ =>
      let nx := if w ≤ x + off then w - 1 else x + off
      let p1 := currentImage.getRGB x y
      let p2 := currentImage.getRGB nx y
      (min 255 ((6 * p1.1 + 4 * p2.1) / 10 + 25),
        (6 * p1.2.1 + 4 * p2.2.1) / 10,
        (6 * p1.2.2 + 4 * p2.2.2) / 10))
    cancelRequested preFilterImage 0 currentImage.height
    (Image.mkFresh w currentImage.height)

/-- Embedded from the cancelable overload of
`ImageFilters::applyEnhanceSunlight`: writes a fresh output buffer row by row
with per-row cancellation polls; red and green are boosted by
`min(255, (int)(v * 1.4))`, modelled as the rational truncation
`min 255 ((14 * v) / 10)` (this can differ from the double evaluation by one
on a few sample values; the cancellation property proved about this filter is
independent of the per-pixel arithmetic). -/
def applyEnhanceSunlight (currentImage preFilterImage : Image)
    (cancelRequested : Nat → Bool) : Image :=
  runRowsAux
    (pixRow currentImage.width fun x y _ =>
      let p := currentImage.getRGB x y
      (min 255 ((14 * p.1) / 10), min 255 ((14 * p.2.1) / 10), p.2.2))
    cancelRequested preFilterImage 0 currentImage.height
    (Image.mkFresh currentImage.width currentImage.height)

/-- Embedded from the cancelable overload of `ImageFilters::applyFishEye`:
writes a fresh output buffer row by row with per-row cancellation polls. The
radial float geometry (unit-disk test, `pow(dist, 0.75)` remap, clamping) is
taken as the parameter `remap`, giving for each destination pixel the source
coordinates sampled; everything proved below holds for every instantiation. -/
def applyFishEye (remap : Nat → Nat → Nat × Nat) (currentImage preFilterImage : Image)
    (cancelRequested : Nat → Bool) : Image :=
  runRowsAux
    (pixRow currentImage.width fun x y _ =>
      currentImage.getRGB (remap x y).1 (remap x y).2)
    cancelRequested preFilterImage 0 currentImage.height
    (Image.mkFresh currentImage.width currentImage.height)

/-- Truncation of `std::clamp(v, 0, 255)` on `int`. -/
def clamp255 (v : Int) : Nat := (min 255 (max 0 v)).toNat

/-- Embedded from the cancelable overload of `ImageFilters::applyEmboss`:
writes a fresh output buffer; the loop runs `y < height - 1`, `x < width - 1`
with per-row cancellation polls; each written pixel is the gray mean of the
clamped diagonal differences `v(x, y) - v(x+1, y+1) + 128`. -/
def applyEmboss (currentImage preFilterImage : Image)
    (cancelRequested : Nat → Bool) : Image :=
  runRowsAux
    (pixRow (currentImage.width - 1) fun x y _ =>
      let p1 := currentImage.getRGB x y
      let p2 := currentImage.getRGB (x + 1) (y + 1)
      let gray := (clamp255 ((p1.1 : Int) - p2.1 + 128)
        + clamp255 ((p1.2.1 : Int) - p2.2.1 + 128)
        + clamp255 ((p1.2.2 : Int) - p2.2.2 + 128)) / 3
      (gray, gray, gray))
    cancelRequested preFilterImage 0 (currentImage.height - 1)
    (Image.mkFresh currentImage.width currentImage.height)

/-- Embedded from the window accumulation loops of `ImageFilters::applyBlur`:
sums of the three channels and the in-bounds sample count over the
`(2*blurSize+1) x (2*blurSize+1)` window centred at `(x, y)`, skipping
out-of-bounds neighbours. -/
def blurAccumStep (src : Image) (blurSize x y i : Nat)
    (a2 : Nat × Nat × Nat × Nat) (j : Nat) : Nat × Nat × Nat × Nat :=
  let nx : Int := (x : Int) + j - blurSize
  let ny : Int := (y : Int) + i - blurSize
  if 0 ≤ nx ∧ nx < (src.width : Int) ∧ 0 ≤ ny ∧ ny < (src.height : Int) then
    (a2.1 + src.get nx.toNat ny.toNat 0, a2.2.1 + src.get nx.toNat ny.toNat 1,
      a2.2.2.1 + src.get nx.toNat ny.toNat 2, a2.2.2.2 + 1)
  else a2

def blurAccum (src : Image) (blurSize x y : Nat) : Nat × Nat × Nat × Nat :=
  foldRange (2 * blurSize + 1) (fun a i =>
    foldRange (2 * blurSize + 1) (blurAccumStep src blurSize x y i) a) (0, 0, 0, 0)

/-- The divisor used by `applyBlur`: `std::max(1, count)`. -/
def blurDivisor (src : Image) (blurSize x y : Nat) : Nat :=
  max 1 (blurAccum src blurSize x y).2.2.2

/-- The radius computation of `ImageFilters::applyBlur`:
`strength = std::max(0, std::min(100, strength))` and then
`blurSize = std::max(1, (strength * 24) / 100 + 1)`. -/
def blurRadius (strength : Int) : Nat :=
  let s := max 0 (min 100 strength)
  max 1 ((s.toNat * 24) / 100 + 1)

/-- Embedded from the strength overload of `ImageFilters::applyBlur`: writes a
fresh output buffer row by row with per-row cancellation polls; each output
pixel divides the window sums by `std::max(1, count)`. -/
def applyBlur (currentImage preFilterImage : Image) (cancelRequested : Nat → Bool)
    (strength : Int) : Image :=
  let blurSize := blurRadius strength
  runRowsAux
    (pixRow currentImage.width fun x y _ =>
      let a := blurAccum currentImage blurSize x y
      (a.1 / blurDivisor currentImage blurSize x y,
        a.2.1 / blurDivisor currentImage blurSize x y,
        a.2.2.1 / blurDivisor currentImage blurSize x y))
    cancelRequested preFilterImage 0 currentImage.height
    (Image.mkFresh currentImage.width currentImage.height)

/-- The histogram level of one sample in `ImageFilters::applyOilPainting`:
`min(255, max(0, ((r + g + b) / 3) / max(1, intensity)))`. -/
def oilLevel (inten : Nat) (p : Nat × Nat × Nat) : Nat :=
  min 255 ((p.1 + p.2.1 + p.2.2) / 3 / max 1 inten)

/-- The histogram update block of `applyOilPainting`
(`colorCount[level]++; redSum[level] += r; ...`). -/
def bumpHist (h2 : Nat → Nat × Nat × Nat × Nat) (level : Nat) (p : Nat × Nat × Nat) :
    Nat → Nat × Nat × Nat × Nat :=
  fun k => if k = level then
    ((h2 level).1 + 1, (h2 level).2.1 + p.1,
      (h2 level).2.2.1 + p.2.1, (h2 level).2.2.2 + p.2.2)
  else h2 k

/-- Embedded from the neighbourhood histogram loops of
`ImageFilters::applyOilPainting`: for each level, the in-bounds sample count
and the per-channel sums over the `(2*radius+1) x (2*radius+1)` window;
`oilHistStep` is the per-sample body. -/
def oilHistStep (src : Image) (rad inten i j di : Nat)
    (h2 : Nat → Nat × Nat × Nat × Nat) (dj : Nat) : Nat → Nat × Nat × Nat × Nat :=
  let nx : Int := (i : Int) + dj - rad
  let ny : Int := (j : Int) + di - rad
  if 0 ≤ nx ∧ nx < (src.width : Int) ∧ 0 ≤ ny ∧ ny < (src.height : Int) then
    let p := src.getRGB nx.toNat ny.toNat
    bumpHist h2 (oilLevel inten p) p
  else h2

def oilHist (src : Image) (rad inten i j : Nat) : Nat → Nat × Nat × Nat × Nat :=
  foldRange (2 * rad + 1) (fun h di =>
    foldRange (2 * rad + 1) (oilHistStep src rad inten i j di) h) (fun _ => (0, 0, 0, 0))

/-- Embedded from the argmax scan of `ImageFilters::applyOilPainting`:
`for k in [0, 256) if (count[k] > maxCount) update` starting from
`(maxCount, maxLevel) = (0, 0)`; strict `>` keeps the first (lowest) level on
ties. -/
def oilMaxLevel (hist : Nat → Nat × Nat × Nat × Nat) : Nat × Nat :=
  foldRange 256 (fun mc k => if (hist k).1 > mc.1 then ((hist k).1, k) else mc) (0, 0)

/-- The divisor used by `applyOilPainting`: `std::max(1, colorCount[maxLevel])`. -/
def oilDenom (src : Image) (rad inten i j : Nat) : Nat :=
  max 1 ((oilHist src rad inten i j) (oilMaxLevel (oilHist src rad inten i j)).2).1

/-- Embedded from the cancelable overload of `ImageFilters::applyOilPainting`:
writes a fresh output buffer row by row (outer loop over `j`) with per-row
cancellation polls; parameters are clamped by `radius = max(1, radius)` and
`intensity = max(1, min(255, intensity))`; each output channel is the channel
sum of the most frequent level bucket divided by `max(1, count)`. -/
def applyOilPainting (currentImage preFilterImage : Image)
    (cancelRequested : Nat → Bool) (radius intensity : Int) : Image :=
  let rad : Nat := (max 1 radius).toNat
  let inten : Nat := (max 1 (min 255 intensity)).toNat
  runRowsAux
    (pixRow currentImage.width fun i j _ =>
      let hist := oilHist currentImage rad inten i j
      let maxLevel := (oilMaxLevel hist).2
      let denom := oilDenom currentImage rad inten i j
      ((hist maxLevel).2.1 / denom, (hist maxLevel).2.2.1 / denom,
        (hist maxLevel).2.2.2 / denom))
    cancelRequested preFilterImage 0 currentImage.height
    (Image.mkFresh currentImage.width currentImage.height)

/-- C1: for every cancelable filter operation (grayscale, TV/CRT,
black and white, invert, blur, emboss, double-vision, oil-painting,
enhance-sunlight, fish-eye, infrared, purple), if the cancellation token reads
set at one of the polls made at the start of a row (column for infrared), the
operation overwrites the working buffer with the pre-operation snapshot buffer
and returns it without completing, so the result is exactly the snapshot. -/
theorem cancelable_filters_restore_snapshot (img pre : Image) (cancel : Nat → Bool)
    (tvPixel : Nat → Nat → Nat × Nat × Nat → Nat × Nat × Nat)
    (remap : Nat → Nat → Nat × Nat) (strength offset radius intensity : Int) :
    ((∃ k < img.height, cancel k = true) → applyGrayscale img pre cancel = pre) ∧
    ((∃ k < img.height, cancel k = true) → applyTVFilter tvPixel img pre cancel = pre) ∧
    ((∃ k < img.height, cancel k = true) → applyBlackAndWhite img pre cancel = pre) ∧
    ((∃ k < img.height, cancel k = true) → applyInvert img pre cancel = pre) ∧
    ((∃ k < img.height, cancel k = true) → applyBlur img pre cancel strength = pre) ∧
    ((∃ k < img.height - 1, cancel k = true) → applyEmboss img pre cancel = pre) ∧
    ((∃ k < img.height, cancel k = true) → applyDoubleVision img pre cancel offset = pre) ∧
    ((∃ k < img.height, cancel k = true) →
      applyOilPainting img pre cancel radius intensity = pre) ∧
    ((∃ k < img.height, cancel k = true) → applyEnhanceSunlight img pre cancel = pre) ∧
    ((∃ k < img.height, cancel k = true) → applyFishEye remap img pre cancel = pre) ∧
    ((∃ k < img.width, cancel k = true) → applyInfrared img pre cancel = pre) ∧
    ((∃ k < img.height, cancel k = true) → applyPurpleFilter img pre cancel = pre) := by
  refine ⟨?_, ?_, ?_, ?_, ?_, ?_, ?_, ?_, ?_, ?_, ?_, ?_⟩ <;>
    exact fun h => runRowsAux_cancelled _ _ _ _ _ _ (by simpa using h)

/-- A concrete 2 x 2 test buffer. -/
def imgA : Image := ⟨2, 2, fun x y c => (40 * x + 20 * y + 5 * c) % 256⟩

/-- A concrete 2 x 2 snapshot buffer, distinct from `imgA`. -/
def preA : Image := ⟨2, 2, fun _ _ _ => 7⟩

/-- A cancellation token that reads set at every poll. -/
def ctrue : Nat → Bool := fun _ => true

/-- A cancellation token that never reads set. -/
def cfalse : Nat → Bool := fun _ => false

/-- A concrete instantiation of the fish-eye remap parameter. -/
def idRemap : Nat → Nat → Nat × Nat := fun x y => (x, y)

/-- A concrete instantiation of the TV per-pixel parameter. -/
def idTvPixel : Nat → Nat → Nat × Nat × Nat → Nat × Nat × Nat := fun _ _ p => p

theorem cancelable_filters_restore_snapshot_witness :
    applyGrayscale imgA preA ctrue = preA ∧
    applyEmboss imgA preA ctrue = preA ∧
    applyInfrared imgA preA ctrue = preA := by
  have h := cancelable_filters_restore_snapshot imgA preA ctrue idTvPixel idRemap 0 0 0 0
  exact ⟨h.1 ⟨0, by decide, rfl⟩,
    h.2.2.2.2.2.1 ⟨0, by decide, rfl⟩,
    h.2.2.2.2.2.2.2.2.2.2.1 ⟨0, by decide, rfl⟩⟩

/-- C2: every pixel of a completed (never-cancelled) `applyGrayscale` carries
`floor((R + G + B) / 3)` of the input pixel, computed with integer division, on
all three channels (channel `c` ranges over all of 0, 1, 2 here, so the three
output channels are equal). -/
theorem applyGrayscale_completed_pixels (img pre : Image) (cancel : Nat → Bool)
    (hWf : img.Wf) (hc : ∀ k < img.height, cancel k = false)
    (x y c : Nat) (hx : x < img.width) (hy : y < img.height) (hcc : c < 3) :
    (applyGrayscale img pre cancel).get x y c =
      (img.get x y 0 + img.get x y 1 + img.get x y 2) / 3 := by
  unfold applyGrayscale
  rw [runRowsAux_completes _ _ _ _ _ _ (fun k hk => by rw [Nat.zero_add]; exact hc k (by omega)),
    runRowsPlain_pixRow_get, if_pos ⟨hx, by omega, by omega, hcc⟩]
  have h0 := hWf x hx y hy 0 (by omega)
  have h1 := hWf x hx y hy 1 (by omega)
  have h2 := hWf x hx y hy 2 (by omega)
  show chan c ((img.get x y 0 + img.get x y 1 + img.get x y 2) / 3,
    (img.get x y 0 + img.get x y 1 + img.get x y 2) / 3,
    (img.get x y 0 + img.get x y 1 + img.get x y 2) / 3) % 256 =
    (img.get x y 0 + img.get x y 1 + img.get x y 2) / 3
  rw [chan_triple]
  exact Nat.mod_eq_of_lt (by omega)

/-- The 4 x 4 buffer of the spec scenario, every pixel (100, 150, 200). -/
def img44 : Image :=
  ⟨4, 4, fun _ _ c => if c = 0 then 100 else if c = 1 then 150 else 200⟩

theorem applyGrayscale_completed_pixels_witness :
    Image.Wf img44 ∧ (∀ k < img44.height, cfalse k = false) ∧
    (applyGrayscale img44 img44 cfalse).get 1 2 0 = 150 := by
  refine ⟨by decide, by decide, ?_⟩
  have h := applyGrayscale_completed_pixels img44 img44 cfalse (by decide) (by decide)
    1 2 0 (by decide) (by decide) (by decide)
  rw [h]
  decide

/-- Pointwise description of a completed `applyInvert`: every in-range sample
becomes `255 - v` (a value that is at most 255, so the 8-bit store keeps it). -/
theorem applyInvert_get (img pre : Image) (cancel : Nat → Bool)
    (hc : ∀ k < img.height, cancel k = false)
    (x y c : Nat) (hx : x < img.width) (hy : y < img.height) (hcc : c < 3) :
    (applyInvert img pre cancel).get x y c = 255 - img.get x y c := by
  unfold applyInvert
  rw [runRowsAux_completes _ _ _ _ _ _ (fun k hk => by rw [Nat.zero_add]; exact hc k (by omega)),
    runRowsPlain_pixRow_get, if_pos ⟨hx, by omega, by omega, hcc⟩]
  show chan c (255 - img.get x y 0, 255 - img.get x y 1, 255 - img.get x y 2) % 256 =
    255 - img.get x y c
  rcases c with _ | _ | _ | c
  · show (255 - img.get x y 0) % 256 = 255 - img.get x y 0
    exact Nat.mod_eq_of_lt (by omega)
  · show (255 - img.get x y 1) % 256 = 255 - img.get x y 1
    exact Nat.mod_eq_of_lt (by omega)
  · show (255 - img.get x y 2) % 256 = 255 - img.get x y 2
    exact Nat.mod_eq_of_lt (by omega)
  · omega

theorem applyInvert_width (img pre : Image) (cancel : Nat → Bool)
    (hc : ∀ k < img.height, cancel k = false) :
    (applyInvert img pre cancel).width = img.width := by
  unfold applyInvert
  rw [runRowsAux_completes _ _ _ _ _ _ (fun k hk => by rw [Nat.zero_add]; exact hc k (by omega))]
  exact runRowsPlain_width _ (fun im y => pixRow_width _ _ im y) _ _ _

theorem applyInvert_height (img pre : Image) (cancel : Nat → Bool)
    (hc : ∀ k < img.height, cancel k = false) :
    (applyInvert img pre cancel).height = img.height := by
  unfold applyInvert
  rw [runRowsAux_completes _ _ _ _ _ _ (fun k hk => by rw [Nat.zero_add]; exact hc k (by omega))]
  exact runRowsPlain_height _ (fun im y => pixRow_height _ _ im y) _ _ _

/-- C3: applying `applyInvert` twice, with both runs completing without
cancellation, yields a buffer byte-identical to the original, because each
channel value `v` maps to `255 - v` and `255 - (255 - v) = v` for 8-bit
values. -/
theorem applyInvert_involution (img pre1 pre2 : Image) (c1 c2 : Nat → Bool)
    (hWf : img.Wf) (h1 : ∀ k < img.height, c1 k = false)
    (h2 : ∀ k < img.height, c2 k = false) :
    (applyInvert (applyInvert img pre1 c1) pre2 c2).identical img := by
  have hW1 := applyInvert_width img pre1 c1 h1
  have hH1 := applyInvert_height img pre1 c1 h1
  have h2' : ∀ k < (applyInvert img pre1 c1).height, c2 k = false := by
    rw [hH1]; exact h2
  have hW2 := applyInvert_width (applyInvert img pre1 c1) pre2 c2 h2'
  have hH2 := applyInvert_height (applyInvert img pre1 c1) pre2 c2 h2'
  refine ⟨by rw [hW2, hW1], by rw [hH2, hH1], ?_⟩
  intro x hx y hy c hc
  rw [hW2, hW1] at hx
  rw [hH2, hH1] at hy
  rw [applyInvert_get (applyInvert img pre1 c1) pre2 c2 h2' x y c
    (by rw [hW1]; exact hx) (by rw [hH1]; exact hy) hc]
  rw [applyInvert_get img pre1 c1 h1 x y c hx hy hc]
  have := hWf x hx y hy c hc
  omega

theorem applyInvert_involution_witness :
    Image.Wf imgA ∧ (∀ k < imgA.height, cfalse k = false) ∧
    (applyInvert (applyInvert imgA preA cfalse) preA cfalse).identical imgA :=
  ⟨by decide, by decide,
    applyInvert_involution imgA preA preA cfalse cfalse (by decide) (by decide) (by decide)⟩

/-- Embedded from `ImageFilters::applyResize`: nearest-neighbour resampling
into a fresh `width x height` buffer; `srcX = (int)(x * (srcWidth / width))`,
with the double ratio modelled as exact rational truncation
`(x * srcWidth) / width`, then clamped by `min(srcX, srcWidth - 1)`; symmetric
for `y`. The truncation can differ from the double computation at some
non-integral ratios; it agrees with it whenever the ratio is integral, in
particular on the identity case that the resize theorem evaluates. -/
def applyResize (currentImage : Image) (width height : Nat) : Image :=
  renderRect 0 width 0 height
    (fun x y =>
      let srcX := min ((x * currentImage.width) / width) (currentImage.width - 1)
      let srcY := min ((y * currentImage.height) / height) (currentImage.height - 1)
      some (currentImage.getRGB srcX srcY))
    (Image.mkFresh width height)

/-- C4: resizing a buffer to its own dimensions with the nearest-neighbour
resize is the identity on the buffer (the ratio is 1, so
`srcX = floor(x * W / W) = x`, and the clamp at `W - 1` never bites). -/
theorem applyResize_identity (img : Image) (hWf : img.Wf) :
    (applyResize img img.width img.height).identical img := by
  have hwidth : (applyResize img img.width img.height).width = img.width := by
    unfold applyResize
    rw [renderRect_width]
    rfl
  have hheight : (applyResize img img.width img.height).height = img.height := by
    unfold applyResize
    rw [renderRect_height]
    rfl
  refine ⟨hwidth, hheight, ?_⟩
  intro x hx y hy c hc
  rw [hwidth] at hx
  rw [hheight] at hy
  unfold applyResize
  rw [renderRect_get, if_pos ⟨by omega, by omega, by omega, by omega, hc⟩]
  have hxx : min ((x * img.width) / img.width) (img.width - 1) = x := by
    rw [Nat.mul_div_cancel x (by omega)]
    omega
  have hyy : min ((y * img.height) / img.height) (img.height - 1) = y := by
    rw [Nat.mul_div_cancel y (by omega)]
    omega
  show optVal (some (img.getRGB
    (min ((x * img.width) / img.width) (img.width - 1))
    (min ((y * img.height) / img.height) (img.height - 1)))) c _ = img.get x y c
  rw [hxx, hyy]
  rcases c with _ | _ | _ | c
  · show (img.get x y 0) % 256 = img.get x y 0
    exact Nat.mod_eq_of_lt (by have := hWf x hx y hy 0 (by omega); omega)
  · show (img.get x y 1) % 256 = img.get x y 1
    exact Nat.mod_eq_of_lt (by have := hWf x hx y hy 1 (by omega); omega)
  · show (img.get x y 2) % 256 = img.get x y 2
    exact Nat.mod_eq_of_lt (by have := hWf x hx y hy 2 (by omega); omega)
  · omega

theorem applyResize_identity_witness :
    Image.Wf imgA ∧ (applyResize imgA imgA.width imgA.height).identical imgA :=
  ⟨by decide, applyResize_identity imgA (by decide)⟩

/-- Embedded from `ImageFilters::applyMerge`: in place on the first buffer,
writing the per-channel average `(v1 + v2) / 2` over the overlapping top-left
region sized by the smaller width and the smaller height of the two buffers. -/
def applyMerge (currentImage mergeImage : Image) : Image :=
  renderRect 0 (min currentImage.width mergeImage.width) 0
    (min currentImage.height mergeImage.height)
    (fun x y =>
      some ((currentImage.get x y 0 + mergeImage.get x y 0) / 2,
        (currentImage.get x y 1 + mergeImage.get x y 1) / 2,
        (currentImage.get x y 2 + mergeImage.get x y 2) / 2))
    currentImage

/-- C10: `applyMerge` keeps the first buffer dimensions; every pixel outside
the overlapping top-left region (that is, with `x >= min(width1, width2)` or
`y >= min(height1, height2)`) keeps its original value, and every pixel inside
it becomes the per-channel average of the two buffers. -/
theorem applyMerge_region (a b : Image) (hWa : a.Wf) (hWb : b.Wf) (x y c : Nat)
    (hx : x < a.width) (hy : y < a.height) (hc : c < 3) :
    (applyMerge a b).width = a.width ∧ (applyMerge a b).height = a.height ∧
    ((min a.width b.width ≤ x ∨ min a.height b.height ≤ y) →
      (applyMerge a b).get x y c = a.get x y c) ∧
    (x < min a.width b.width → y < min a.height b.height →
      (applyMerge a b).get x y c = (a.get x y c + b.get x y c) / 2) := by
  refine ⟨by unfold applyMerge; rw [renderRect_width],
    by unfold applyMerge; rw [renderRect_height], ?_, ?_⟩
  · intro hout
    unfold applyMerge
    rw [renderRect_get, if_neg (by omega)]
  · intro hxin hyin
    unfold applyMerge
    rw [renderRect_get, if_pos ⟨by omega, by omega, by omega, by omega, hc⟩]
    rcases c with _ | _ | _ | c
    · show ((a.get x y 0 + b.get x y 0) / 2) % 256 = (a.get x y 0 + b.get x y 0) / 2
      exact Nat.mod_eq_of_lt (by
        have h1 := hWa x hx y hy 0 (by omega)
        have h2 := hWb x (by omega) y (by omega) 0 (by omega)
        omega)
    · show ((a.get x y 1 + b.get x y 1) / 2) % 256 = (a.get x y 1 + b.get x y 1) / 2
      exact Nat.mod_eq_of_lt (by
        have h1 := hWa x hx y hy 1 (by omega)
        have h2 := hWb x (by omega) y (by omega) 1 (by omega)
        omega)
    · show ((a.get x y 2 + b.get x y 2) / 2) % 256 = (a.get x y 2 + b.get x y 2) / 2
      exact Nat.mod_eq_of_lt (by
        have h1 := hWa x hx y hy 2 (by omega)
        have h2 := hWb x (by omega) y (by omega) 2 (by omega)
        omega)
    · omega

/-- A concrete 3 x 1 buffer, wider than `imgA`. -/
def imgWide : Image := ⟨3, 1, fun x _ c => (10 * x + c) % 256⟩

theorem applyMerge_region_witness :
    Image.Wf imgWide ∧ Image.Wf imgA ∧
    ((min imgWide.width imgA.width ≤ 2 ∨ min imgWide.height imgA.height ≤ 0) →
      (applyMerge imgWide imgA).get 2 0 0 = imgWide.get 2 0 0) ∧
    (0 < min imgWide.width imgA.width → 0 < min imgWide.height imgA.height →
      (applyMerge imgWide imgA).get 0 0 1 =
        (imgWide.get 0 0 1 + imgA.get 0 0 1) / 2) := by
  refine ⟨by decide, by decide, ?_, ?_⟩
  · exact fun h =>
      (applyMerge_region imgWide imgA (by decide) (by decide) 2 0 0
        (by decide) (by decide) (by decide)).2.2.1 h
  · exact fun h1 h2 =>
      (applyMerge_region imgWide imgA (by decide) (by decide) 0 0 1
        (by decide) (by decide) (by decide)).2.2.2 h1 h2

/-- Embedded from `ImageFilters::applyFlip`: in place; the direction test is
`if (direction == "Horizontal") ... else ...`, so every direction other than
"Horizontal" takes the vertical branch (the header documents a
std::invalid_argument throw for other directions, but no throw exists in the
implementation). Each branch swaps pixel pairs through a temporary, exactly as
the source does. -/
def applyFlip (currentImage : Image) (direction : String) : Image :=
  if direction = "Horizontal" then
    foldRange currentImage.height (fun im y =>
      foldRange (currentImage.width / 2) (fun im2 x =>
        let x2 := currentImage.width - 1 - x
        foldRange 3 (fun im3 c =>
          let temp := im3.get x y c
          (im3.setPixel x y c (im3.get x2 y c)).setPixel x2 y c temp) im2) im)
      currentImage
  else
    foldRange (currentImage.height / 2) (fun im y =>
      foldRange currentImage.width (fun im2 x =>
        let y2 := currentImage.height - 1 - y
        foldRange 3 (fun im3 c =>
          let temp := im3.get x y c
          (im3.setPixel x y c (im3.get x y2 c)).setPixel x y2 c temp) im2) im)
      currentImage

/-- Embedded from the choice overload of `ImageFilters::applyDarkAndLight`:
builds a fresh buffer, outer loop over `x`; the choice test is
`if (choice == "dark") p = p / 3; else { p = p * 2; clamp }`, so every choice
other than "dark" takes the light branch (the header documents a
std::invalid_argument throw for other choices, but no throw exists in the
implementation). -/
def applyDarkAndLight (currentImage : Image) (choice : String) : Image :=
  renderRectXY 0 currentImage.width 0 currentImage.height
    (fun i j =>
      some ((if choice = "dark" then currentImage.get i j 0 / 3
          else min 255 (currentImage.get i j 0 * 2)),
        (if choice = "dark" then currentImage.get i j 1 / 3
          else min 255 (currentImage.get i j 1 * 2)),
        (if choice = "dark" then currentImage.get i j 2 / 3
          else min 255 (currentImage.get i j 2 * 2))))
    (Image.mkFresh currentImage.width currentImage.height)

/-- Embedded from `ImageFilters::applyFrame`: each recognized frame type stamps
a deterministic pattern into an enlarged fresh canvas and pastes the source
image at its offset; the final `else` is the decorated brown/beige frame, so
every unrecognized frame type silently falls back to it (the header documents a
std::invalid_argument throw for unrecognized types, but no throw exists in the
implementation). The `endsWith` color dispatch of the solid branch is modelled
by equality with the five strings that reach that branch. -/
def applyFrame (currentImage : Image) (frameType : String) : Image :=
  let w := currentImage.width
  let h := currentImage.height
  if frameType = "Simple Frame" then
    let filled := renderRect 0 (w + 20) 0 (h + 20) (fun _ _ => some (0, 0, 255))
      (Image.mkFresh (w + 20) (h + 20))
    let pasted := renderRect 10 w 10 h
      (fun x y => some (currentImage.getRGB (x - 10) (y - 10))) filled
    renderRect 15 (w - 10) 15 (h - 10)
      (fun x y =>
        if x < 10 + 5 + 5 ∨ 10 + w - 5 - 5 ≤ x ∨ y < 10 + 5 + 5 ∨ 10 + h - 5 - 5 ≤ y then
          some (255, 255, 255)
        else none) pasted
  else if frameType = "Double Border - White" then
    let newW := w + 2 * (14 + 6 + 4)
    let newH := h + 2 * (14 + 6 + 4)
    let filled := renderRect 0 newW 0 newH (fun _ _ => some (20, 20, 20))
      (Image.mkFresh newW newH)
    let outerW := renderRect 0 newW 0 newH
      (fun x y =>
        if x < 14 ∨ newW - 14 ≤ x ∨ y < 14 ∨ newH - 14 ≤ y then
          some (255, 255, 255)
        else none) filled
    let innerW := renderRect 18 (newW - 36) 18 (newH - 36)
      (fun x y =>
        if x < 18 + 6 ∨ newW - (18 + 6) ≤ x ∨ y < 18 + 6 ∨ newH - (18 + 6) ≤ y then
          some (255, 255, 255)
        else none) outerW
    renderRect 24 w 24 h (fun x y => some (currentImage.getRGB (x - 24) (y - 24))) innerW
  else if frameType = "Solid Frame - Blue" ∨ frameType = "Solid Frame - Red" ∨
      frameType = "Solid Frame - Green" ∨ frameType = "Solid Frame - Black" ∨
      frameType = "Solid Frame - White" then
    let color : Nat × Nat × Nat :=
      if frameType = "Solid Frame - Blue" then (0, 0, 255)
      else if frameType = "Solid Frame - Red" then (255, 0, 0)
      else if frameType = "Solid Frame - Green" then (0, 255, 0)
      else if frameType = "Solid Frame - White" then (255, 255, 255)
      else (0, 0, 0)
    let filled := renderRect 0 (w + 40) 0 (h + 40) (fun _ _ => some color)
      (Image.mkFresh (w + 40) (h + 40))
    renderRect 20 w 20 h (fun x y => some (currentImage.getRGB (x - 20) (y - 20))) filled
  else if frameType = "Shadow Frame" then
    let newW := w + 15 + 18
    let newH := h + 15 + 18
    let base := renderRect 0 newW 0 newH (fun _ _ => some (20, 20, 20))
      (Image.mkFresh newW newH)
    let shaded := renderRect 0 newW 0 newH
      (fun x y =>
        let dx := x - (15 + w)
        let dy := y - (15 + h)
        let dist := max dx dy
        let shade := min 60 (dist * 6)
        some (20 + shade, 20 + shade, 20 + shade)) base
    renderRect 15 w 15 h (fun x y => some (currentImage.getRGB (x - 15) (y - 15))) shaded
  else if frameType = "Gold Decorated Frame" then
    let newW := w + 2 * 45
    let newH := h + 2 * 45
    let filled := renderRect 0 newW 0 newH (fun _ _ => some (180, 140, 40))
      (Image.mkFresh newW newH)
    let striped := renderRect 3 (newW - 6) 3 (newH - 6)
      (fun x y =>
        if (x + y) % 11 = 0 ∨ ((x : Int) - (y : Int) + 1000) % 13 = 0 then
          some (200, 160, 60)
        else none) filled
    let plated := renderRect (45 - 6) (newW - 2 * (45 - 6)) (45 - 6) (newH - 2 * (45 - 6))
      (fun _ _ => some (240, 210, 120)) striped
    renderRect 45 w 45 h (fun x y => some (currentImage.getRGB (x - 45) (y - 45))) plated
  else
    let newW := w + 2 * 25
    let newH := h + 2 * 25
    let pasted := renderRect 25 w 25 h
      (fun x y => some (currentImage.getRGB (x - 25) (y - 25)))
      (Image.mkFresh newW newH)
    renderRect 0 newW 0 newH
      (fun x y =>
        if x < 25 ∨ newW - 25 ≤ x ∨ y < 25 ∨ newH - 25 ≤ y then
          let distFromEdge := min (min x y) (min (newW - 1 - x) (newH - 1 - y))
          if distFromEdge < 3 then some (100, 70, 50)
          else if distFromEdge = 12 ∨ distFromEdge = 15 ∨ distFromEdge = 9 then
            some (180, 140, 80)
          else if distFromEdge < 25 - 4 then
            let cornerDist := min (min x (newW - 1 - x)) (min y (newH - 1 - y))
            if cornerDist < 25 ∧ (x + y) % 12 = 0 then some (180, 140, 80)
            else some (235, 225, 210)
          else if 25 - 4 ≤ distFromEdge ∧ distFromEdge < 25 - 1 then some (180, 140, 80)
          else some (100, 70, 50)
        else none) pasted

/-- A concrete 1 x 2 buffer whose two rows differ. -/
def imgTall : Image := ⟨1, 2, fun _ y c => 10 + 20 * y + c⟩

/-- C7 (evaluating the code at the failing inputs): the source silently
defaults on unrecognized enum-like strings instead of failing with an
InvalidParameter error: `applyFlip` performs a vertical flip for the
unrecognized direction "Diagonal", `applyDarkAndLight` applies the light
branch for an unrecognized choice, and `applyFrame` stamps the decorated
fallback frame (the result of an unknown type equals the "Decorated Frame"
result, and the canvas grows by 2 x 25), all contradicting the documented
std::invalid_argument contracts. -/
theorem unrecognized_parameter_silently_defaults (img : Image) :
    applyFlip img "Diagonal" = applyFlip img "Vertical" ∧
    applyDarkAndLight img "Diagonal" = applyDarkAndLight img "light" ∧
    applyFrame img "Unknown Frame" = applyFrame img "Decorated Frame" ∧
    (applyFrame img "Unknown Frame").width = img.width + 50 ∧
    (applyFlip imgTall "Diagonal").get 0 0 0 = 30 ∧
    (applyDarkAndLight imgTall "Diagonal").get 0 0 0 = 20 := by
  refine ⟨?_, ?_, ?_, ?_, by decide, by decide⟩
  · unfold applyFlip
    rw [if_neg (by decide), if_neg (by decide)]
  · unfold applyDarkAndLight
    congr 1
  · unfold applyFrame
    repeat rw [if_neg (by decide)]
  · unfold applyFrame
    rw [if_neg (by decide), if_neg (by decide), if_neg (by decide), if_neg (by decide),
      if_neg (by decide)]
    rw [renderRect_width, renderRect_width]
    rfl

/-- History Manager. Modelled from the spec: the file `HistoryManager.h` is
not under `src/` (only its call sites in photo_smith.cpp are), so this follows
spec section 4.4 and the History Entry data model of section 3: two bounded
stacks of full snapshots plus a capacity `N`; `pushUndo` stores the snapshot,
evicting the oldest (bottom) entry when the capacity would be exceeded, and
clears the redo stack; `canUndo` is true exactly when the undo stack is
nonempty. The head of each list is the top of the stack. -/
structure HistoryManager where
  capacity : Nat
  undoStack : List Image
  redoStack : List Image

/-- Modelled from the spec (section 4.4): push a deep snapshot, evict the
oldest entry past capacity (keeping the `capacity` newest), clear redo. -/
def HistoryManager.pushUndo (h : HistoryManager) (snapshot : Image) : HistoryManager :=
  { h with undoStack := (snapshot :: h.undoStack).take h.capacity, redoStack := [] }

/-- Modelled from the spec (section 4.4): true exactly when undo is possible. -/
def HistoryManager.canUndo (h : HistoryManager) : Bool := !h.undoStack.isEmpty

/-- Modelled from the spec (section 4.4): true exactly when redo is possible. -/
def HistoryManager.canRedo (h : HistoryManager) : Bool := !h.redoStack.isEmpty

/-- Modelled from the spec (section 4.4): pop the newest undo entry, push the
pre-undo current state onto redo, hand the popped snapshot to the caller;
`none` models the `false` return on an empty stack. -/
def HistoryManager.undo (h : HistoryManager) (current : Image) :
    Option (HistoryManager × Image) :=
  match h.undoStack with
  | [] => none
  | s :: rest =>
    some ({ h with undoStack := rest, redoStack := current :: h.redoStack }, s)

/-- Modelled from the spec (section 4.4): the mirror of `undo`. -/
def HistoryManager.redo (h : HistoryManager) (current : Image) :
    Option (HistoryManager × Image) :=
  match h.redoStack with
  | [] => none
  | s :: rest =>
    some ({ h with redoStack := rest, undoStack := current :: h.undoStack }, s)

/-- The manager as instantiated by PhotoSmith
(photo_smith.cpp, `HistoryManager history{20}`). -/
def photoSmithHistory : HistoryManager := ⟨20, [], []⟩

/-- A sequence of `pushUndo` calls, one per mutating operation. -/
def pushAll (h : HistoryManager) (snaps : List Image) : HistoryManager :=
  snaps.foldl HistoryManager.pushUndo h

theorem pushAll_capacity (snaps : List Image) (h : HistoryManager) :
    (pushAll h snaps).capacity = h.capacity := by
  induction snaps generalizing h with
  | nil => rfl
  | cons s rest ih => exact (ih (h.pushUndo s)).trans rfl

theorem pushAll_undoStack (snaps : List Image) (h : HistoryManager)
    (hlen : h.undoStack.length ≤ h.capacity) :
    (pushAll h snaps).undoStack = (snaps.reverse ++ h.undoStack).take h.capacity := by
  induction snaps generalizing h with
  | nil =>
    simp only [pushAll, List.foldl_nil, List.reverse_nil, List.nil_append]
    exact (List.take_of_length_le hlen).symm
  | cons s rest ih =>
    have hstep : (pushAll h (s :: rest)) = pushAll (h.pushUndo s) rest := rfl
    rw [hstep, ih (h.pushUndo s) (by
      simp only [HistoryManager.pushUndo]
      exact (List.length_take _ _).le.trans (by omega))]
    simp only [HistoryManager.pushUndo, List.reverse_cons, List.append_assoc,
      List.singleton_append]
    rw [List.take_append_eq_append_take, List.take_append_eq_append_take, List.take_take]
    congr 2
    omega

/-- C9: for the History Manager with capacity N (instantiated at 20 by
PhotoSmith): a push never leaves more than N entries on the undo stack;
pushing N+1 snapshots onto an empty capacity-N manager leaves exactly N
entries, namely all but the oldest (first) snapshot, the oldest being
discarded from the bottom; and `canUndo` is false exactly when the undo stack
is empty. -/
theorem historyManager_bounded (h : HistoryManager) (s : Image)
    (snaps : List Image) (cap : Nat) (hlen : snaps.length = cap + 1) :
    ((h.pushUndo s).undoStack.length ≤ h.capacity) ∧
    ((pushAll (HistoryManager.mk cap [] []) snaps).undoStack =
        (snaps.drop 1).reverse ∧
      (pushAll (HistoryManager.mk cap [] []) snaps).undoStack.length = cap) ∧
    (h.canUndo = false ↔ h.undoStack = []) ∧
    photoSmithHistory.capacity = 20 := by
  have hstack : (pushAll (HistoryManager.mk cap [] []) snaps).undoStack =
      (snaps.drop 1).reverse := by
    rw [pushAll_undoStack snaps (HistoryManager.mk cap [] []) (by simp)]
    rcases snaps with _ | ⟨a, t⟩
    · simp at hlen
    · have ht : t.length = cap := by simpa using hlen
      simp only [List.reverse_cons, List.append_nil, List.drop_succ_cons, List.drop_zero]
      rw [List.take_append_eq_append_take]
      simp [List.length_reverse, ht]
  refine ⟨?_, ⟨hstack, ?_⟩, ?_, rfl⟩
  · simp only [HistoryManager.pushUndo]
    exact (List.length_take _ _).le.trans (by simp)
  · rw [hstack]
    rcases snaps with _ | ⟨a, t⟩
    · simp at hlen
    · simpa using by simpa using hlen
  · simp [HistoryManager.canUndo, List.isEmpty_iff]

theorem historyManager_bounded_witness :
    [imgA, preA, imgTall].length = 2 + 1 ∧
    (pushAll (HistoryManager.mk 2 [] []) [imgA, preA, imgTall]).undoStack =
      ([imgA, preA, imgTall].drop 1).reverse :=
  ⟨rfl, (historyManager_bounded photoSmithHistory imgA [imgA, preA, imgTall] 2
    rfl).2.1.1⟩

theorem foldRange_meas_le {α : Type} (meas : α → Nat) (n : Nat) (f : α → Nat → α)
    (hmono : ∀ a k, meas a ≤ meas (f a k)) (a : α) :
    meas a ≤ meas (foldRange n f a) := by
  induction n with
  | zero => simp
  | succ n ih => rw [foldRange_succ]; exact ih.trans (hmono _ _)

theorem foldRange_meas_hit {α : Type} (meas : α → Nat) (n : Nat) (f : α → Nat → α)
    (hmono : ∀ a k, meas a ≤ meas (f a k)) (k0 : Nat) (hk : k0 < n)
    (hhit : ∀ a, 1 ≤ meas (f a k0)) (a : α) :
    1 ≤ meas (foldRange n f a) := by
  induction n with
  | zero => omega
  | succ n ih =>
    rw [foldRange_succ]
    by_cases hlt : k0 < n
    · exact (ih hlt).trans (hmono _ _)
    · have : k0 = n := by omega
      rw [← this]
      exact hhit _

theorem bumpHist_count (h2 : Nat → Nat × Nat × Nat × Nat) (level : Nat)
    (p : Nat × Nat × Nat) (l : Nat) :
    (bumpHist h2 level p l).1 = if l = level then (h2 level).1 + 1 else (h2 l).1 := by
  unfold bumpHist
  split_ifs with h <;> rfl

theorem blurAccumStep_count_mono (src : Image) (blurSize x y i : Nat)
    (a2 : Nat × Nat × Nat × Nat) (j : Nat) :
    a2.2.2.2 ≤ (blurAccumStep src blurSize x y i a2 j).2.2.2 := by
  unfold blurAccumStep
  dsimp only
  split_ifs with h
  · exact Nat.le_succ _
  · exact le_refl _

theorem blurAccumStep_count_hit (src : Image) (blurSize x y : Nat)
    (hx : x < src.width) (hy : y < src.height) (a2 : Nat × Nat × Nat × Nat) :
    1 ≤ (blurAccumStep src blurSize x y blurSize a2 blurSize).2.2.2 := by
  have hcond : (0 : Int) ≤ (x : Int) + (blurSize : Int) - (blurSize : Int) ∧
      (x : Int) + (blurSize : Int) - (blurSize : Int) < (src.width : Int) ∧
      (0 : Int) ≤ (y : Int) + (blurSize : Int) - (blurSize : Int) ∧
      (y : Int) + (blurSize : Int) - (blurSize : Int) < (src.height : Int) :=
    ⟨by omega, by omega, by omega, by omega⟩
  unfold blurAccumStep
  dsimp only
  rw [if_pos hcond]
  exact Nat.succ_le_succ (Nat.zero_le _)

theorem blurAccum_count_pos (src : Image) (blurSize x y : Nat)
    (hx : x < src.width) (hy : y < src.height) :
    1 ≤ (blurAccum src blurSize x y).2.2.2 := by
  unfold blurAccum
  refine foldRange_meas_hit (fun q : Nat × Nat × Nat × Nat => q.2.2.2) _ _
    (fun a i => foldRange_meas_le (fun q : Nat × Nat × Nat × Nat => q.2.2.2) _ _
      (blurAccumStep_count_mono src blurSize x y i) a)
    blurSize (by omega) (fun a => ?_) _
  exact foldRange_meas_hit (fun q : Nat × Nat × Nat × Nat => q.2.2.2) _ _
    (blurAccumStep_count_mono src blurSize x y blurSize) blurSize (by omega)
    (fun a2 => blurAccumStep_count_hit src blurSize x y hx hy a2) a

theorem oilMaxLevel_spec (hist : Nat → Nat × Nat × Nat × Nat) :
    (∀ k < 256, (hist k).1 ≤ (oilMaxLevel hist).1) ∧
    ((oilMaxLevel hist).1 = 0 ∨ (oilMaxLevel hist).1 = (hist (oilMaxLevel hist).2).1) := by
  unfold oilMaxLevel
  have hgen : ∀ n : Nat,
      (∀ k < n, (hist k).1 ≤
        (foldRange n (fun mc k => if (hist k).1 > mc.1 then ((hist k).1, k) else mc) (0, 0)).1) ∧
      ((foldRange n (fun mc k => if (hist k).1 > mc.1 then ((hist k).1, k) else mc) (0, 0)).1 = 0 ∨
        (foldRange n (fun mc k => if (hist k).1 > mc.1 then ((hist k).1, k) else mc) (0, 0)).1 =
          (hist (foldRange n (fun mc k => if (hist k).1 > mc.1 then ((hist k).1, k) else mc)
            (0, 0)).2).1) := by
    intro n
    induction n with
    | zero => exact ⟨fun k hk => by omega, Or.inl rfl⟩
    | succ n ih =>
      rw [foldRange_succ]
      by_cases hcond : (hist n).1 >
          (foldRange n (fun mc k => if (hist k).1 > mc.1 then ((hist k).1, k) else mc) (0, 0)).1
      · rw [if_pos hcond]
        refine ⟨fun k hk => ?_, Or.inr rfl⟩
        by_cases hkn : k < n
        · exact (ih.1 k hkn).trans (by omega)
        · have : k = n := by omega
          rw [this]
      · rw [if_neg hcond]
        refine ⟨fun k hk => ?_, ih.2⟩
        by_cases hkn : k < n
        · exact ih.1 k hkn
        · have : k = n := by omega
          rw [this]
          omega
  exact hgen 256

theorem oilHistStep_count_mono (src : Image) (rad inten i j di : Nat) (l : Nat)
    (h2 : Nat → Nat × Nat × Nat × Nat) (dj : Nat) :
    (h2 l).1 ≤ (oilHistStep src rad inten i j di h2 dj l).1 := by
  unfold oilHistStep
  dsimp only
  split_ifs with h
  · rw [bumpHist_count]
    split_ifs with heq
    · rw [heq]
      omega
    · exact le_refl _
  · exact le_refl _

theorem oilHistStep_count_hit (src : Image) (rad inten i j : Nat)
    (hi : i < src.width) (hj : j < src.height) (h2 : Nat → Nat × Nat × Nat × Nat) :
    1 ≤ (oilHistStep src rad inten i j rad h2 rad (oilLevel inten (src.getRGB i j))).1 := by
  have hcond : (0 : Int) ≤ (i : Int) + (rad : Int) - (rad : Int) ∧
      (i : Int) + (rad : Int) - (rad : Int) < (src.width : Int) ∧
      (0 : Int) ≤ (j : Int) + (rad : Int) - (rad : Int) ∧
      (j : Int) + (rad : Int) - (rad : Int) < (src.height : Int) :=
    ⟨by omega, by omega, by omega, by omega⟩
  unfold oilHistStep
  dsimp only
  rw [if_pos hcond]
  have hcx : ((i : Int) + (rad : Int) - (rad : Int)).toNat = i := by omega
  have hcy : ((j : Int) + (rad : Int) - (rad : Int)).toNat = j := by omega
  rw [hcx, hcy, bumpHist_count, if_pos rfl]
  omega

theorem oilHist_center_pos (src : Image) (rad inten i j : Nat)
    (hi : i < src.width) (hj : j < src.height) :
    1 ≤ (oilHist src rad inten i j (oilLevel inten (src.getRGB i j))).1 := by
  unfold oilHist
  refine foldRange_meas_hit
    (fun h : Nat → Nat × Nat × Nat × Nat => (h (oilLevel inten (src.getRGB i j))).1) _ _
    (fun a di => foldRange_meas_le
      (fun h : Nat → Nat × Nat × Nat × Nat => (h (oilLevel inten (src.getRGB i j))).1) _ _
      (fun h2 dj => oilHistStep_count_mono src rad inten i j di _ h2 dj) a)
    rad (by omega) (fun a => ?_) _
  exact foldRange_meas_hit
    (fun h : Nat → Nat × Nat × Nat × Nat => (h (oilLevel inten (src.getRGB i j))).1) _ _
    (fun h2 dj => oilHistStep_count_mono src rad inten i j rad _ h2 dj)
    rad (by omega) (fun h2 => oilHistStep_count_hit src rad inten i j hi hj h2) a

/-- C8: in the neighbourhood-averaging operations, every division denominator
is structurally floored at 1 (`std::max(1, count)` in blur,
`std::max(1, colorCount[maxLevel])` in oil-painting), hence positive for every
buffer and every parameter value, so division by zero is unreachable; and at
every in-range pixel the underlying counts themselves are at least 1 (the
centre sample always lands in the window, and in the winning oil bucket by the
argmax scan), so the floor never changes the blur quotient. -/
theorem division_denominators_positive (src : Image) (blurSize rad inten x y i j : Nat)
    (hx : x < src.width) (hy : y < src.height)
    (hi : i < src.width) (hj : j < src.height) :
    (0 < blurDivisor src blurSize x y) ∧
    (0 < oilDenom src rad inten i j) ∧
    (blurDivisor src blurSize x y = (blurAccum src blurSize x y).2.2.2) ∧
    (1 ≤ (oilHist src rad inten i j (oilMaxLevel (oilHist src rad inten i j)).2).1) := by
  have hblur := blurAccum_count_pos src blurSize x y hx hy
  have hcenter := oilHist_center_pos src rad inten i j hi hj
  have hlevel : oilLevel inten (src.getRGB i j) < 256 := by
    unfold oilLevel
    omega
  have hmax := (oilMaxLevel_spec (oilHist src rad inten i j)).1
    (oilLevel inten (src.getRGB i j)) hlevel
  have hml := (oilMaxLevel_spec (oilHist src rad inten i j)).2
  have hcount : 1 ≤ (oilHist src rad inten i j
      (oilMaxLevel (oilHist src rad inten i j)).2).1 := by
    rcases hml with h0 | heq
    · omega
    · omega
  refine ⟨by unfold blurDivisor; omega, by unfold oilDenom; omega,
    by unfold blurDivisor; omega, hcount⟩

theorem division_denominators_positive_witness :
    (0 < blurDivisor imgA 1 0 0) ∧ (0 < oilDenom imgA 1 1 0 0) :=
  ⟨(division_denominators_positive imgA 1 1 1 0 0 0 0 (by decide) (by decide)
      (by decide) (by decide)).1,
    (division_denominators_positive imgA 1 1 1 0 0 0 0 (by decide) (by decide)
      (by decide) (by decide)).2.1⟩

/-- Componentwise addition of (R-sum, G-sum, B-sum, count) quadruples. -/
def addQ (a b : Nat × Nat × Nat × Nat) : Nat × Nat × Nat × Nat :=
  (a.1 + b.1, a.2.1 + b.2.1, a.2.2.1 + b.2.2.1, a.2.2.2 + b.2.2.2)

/-- Sum of a list of quadruples. -/
def sumQ (l : List (Nat × Nat × Nat × Nat)) : Nat × Nat × Nat × Nat :=
  l.foldr addQ (0, 0, 0, 0)

theorem addQ_zero (a : Nat × Nat × Nat × Nat) : addQ a (0, 0, 0, 0) = a := by
  unfold addQ
  simp

theorem addQ_zero_left (a : Nat × Nat × Nat × Nat) : addQ (0, 0, 0, 0) a = a := by
  unfold addQ
  simp

theorem addQ_assoc (a b c : Nat × Nat × Nat × Nat) :
    addQ (addQ a b) c = addQ a (addQ b c) := by
  unfold addQ
  simp [Nat.add_assoc]

@[simp] theorem sumQ_nil : sumQ [] = (0, 0, 0, 0) := rfl

@[simp] theorem sumQ_cons (a : Nat × Nat × Nat × Nat) (l : List (Nat × Nat × Nat × Nat)) :
    sumQ (a :: l) = addQ a (sumQ l) := rfl

theorem foldr_addQ_eq (l : List (Nat × Nat × Nat × Nat)) (b : Nat × Nat × Nat × Nat) :
    l.foldr addQ b = addQ (sumQ l) b := by
  induction l with
  | nil => exact (addQ_zero_left b).symm
  | cons a t ih =>
    show addQ a (t.foldr addQ b) = addQ (addQ a (sumQ t)) b
    rw [ih, addQ_assoc]

theorem sumQ_append (l1 l2 : List (Nat × Nat × Nat × Nat)) :
    sumQ (l1 ++ l2) = addQ (sumQ l1) (sumQ l2) := by
  show (l1 ++ l2).foldr addQ (0, 0, 0, 0) = _
  rw [List.foldr_append, foldr_addQ_eq]
  rfl

theorem sumQ_flatMap (l : List Nat) (f : Nat → List (Nat × Nat × Nat × Nat)) :
    sumQ (l.flatMap f) = sumQ (l.map fun i => sumQ (f i)) := by
  induction l with
  | nil => rfl
  | cons a t ih =>
    rw [List.flatMap_cons, sumQ_append, List.map_cons, sumQ_cons, ih]

theorem foldRange_congr (n : Nat) (f g : α → Nat → α)
    (h : ∀ a k, f a k = g a k) (a : α) : foldRange n f a = foldRange n g a := by
  induction n with
  | zero => rfl
  | succ n ih => rw [foldRange_succ, foldRange_succ, ih, h]

theorem foldRange_addQ (n : Nat) (g : Nat → Nat × Nat × Nat × Nat)
    (a : Nat × Nat × Nat × Nat) :
    foldRange n (fun acc k => addQ acc (g k)) a =
      addQ a (sumQ ((List.range n).map g)) := by
  induction n with
  | zero => exact (addQ_zero a).symm
  | succ n ih =>
    rw [foldRange_succ, ih, List.range_succ, List.map_append, sumQ_append, List.map_cons,
      List.map_nil, sumQ_cons, sumQ_nil, addQ_zero, addQ_assoc]

theorem sumQ_map_match (l : List Nat) (f : Nat → Option (Nat × Nat))
    (v : Nat × Nat → Nat × Nat × Nat × Nat) :
    sumQ (l.map fun j => match f j with | some p => v p | none => (0, 0, 0, 0)) =
      sumQ ((l.filterMap f).map v) := by
  induction l with
  | nil => rfl
  | cons a t ih =>
    rcases hf : f a with _ | p
    · rw [List.map_cons, sumQ_cons, hf, List.filterMap_cons, hf, ih, addQ_zero_left]
    · rw [List.map_cons, sumQ_cons, hf, List.filterMap_cons, hf, List.map_cons, sumQ_cons, ih]

theorem sumQ_fst (l : List (Nat × Nat × Nat × Nat)) :
    (sumQ l).1 = (l.map fun q => q.1).sum := by
  induction l with
  | nil => rfl
  | cons a t ih => rw [sumQ_cons, List.map_cons, List.sum_cons, ← ih]; rfl

theorem sumQ_snd (l : List (Nat × Nat × Nat × Nat)) :
    (sumQ l).2.1 = (l.map fun q => q.2.1).sum := by
  induction l with
  | nil => rfl
  | cons a t ih => rw [sumQ_cons, List.map_cons, List.sum_cons, ← ih]; rfl

theorem sumQ_thd (l : List (Nat × Nat × Nat × Nat)) :
    (sumQ l).2.2.1 = (l.map fun q => q.2.2.1).sum := by
  induction l with
  | nil => rfl
  | cons a t ih => rw [sumQ_cons, List.map_cons, List.sum_cons, ← ih]; rfl

theorem sumQ_cnt (l : List (Nat × Nat × Nat × Nat)) :
    (sumQ l).2.2.2 = (l.map fun q => q.2.2.2).sum := by
  induction l with
  | nil => rfl
  | cons a t ih => rw [sumQ_cons, List.map_cons, List.sum_cons, ← ih]; rfl

theorem sum_map_one {β : Type} (l : List β) : (l.map fun _ => 1).sum = l.length := by
  induction l with
  | nil => rfl
  | cons a t ih => simp [ih, Nat.add_comm]

/-- The in-bounds test and source coordinates of one blur window sample, as in
the claim wording ("window shrinks at edges"). -/
def blurCellOpt (src : Image) (r x y i j : Nat) : Option (Nat × Nat) :=
  let nx : Int := (x : Int) + j - r
  let ny : Int := (y : Int) + i - r
  if 0 ≤ nx ∧ nx < (src.width : Int) ∧ 0 ≤ ny ∧ ny < (src.height : Int) then
    some (nx.toNat, ny.toNat)
  else none

/-- Spec-side description of the blur window (claim C5 wording): the list of
in-bounds source coordinates of the `(2r+1) x (2r+1)` window centred at
`(x, y)`, in the iteration order of the source loops. -/
def blurCells (src : Image) (r x y : Nat) : List (Nat × Nat) :=
  (List.range (2 * r + 1)).flatMap fun i =>
    (List.range (2 * r + 1)).filterMap (blurCellOpt src r x y i)

/-- The quadruple contributed by one in-bounds sample. -/
def cellQ (src : Image) (p : Nat × Nat) : Nat × Nat × Nat × Nat :=
  (src.get p.1 p.2 0, src.get p.1 p.2 1, src.get p.1 p.2 2, 1)

theorem blurAccumStep_eq (src : Image) (r x y i : Nat) (a : Nat × Nat × Nat × Nat)
    (j : Nat) :
    blurAccumStep src r x y i a j =
      addQ a (match blurCellOpt src r x y i j with
        | some p => cellQ src p
        | none => (0, 0, 0, 0)) := by
  unfold blurAccumStep blurCellOpt
  dsimp only
  split_ifs with h
  · rfl
  · exact (addQ_zero a).symm

theorem blurAccum_eq (src : Image) (r x y : Nat) :
    blurAccum src r x y =
      (((blurCells src r x y).map fun p => src.get p.1 p.2 0).sum,
        ((blurCells src r x y).map fun p => src.get p.1 p.2 1).sum,
        ((blurCells src r x y).map fun p => src.get p.1 p.2 2).sum,
        (blurCells src r x y).length) := by
  have hinner : ∀ (a : Nat × Nat × Nat × Nat) (i : Nat),
      foldRange (2 * r + 1) (blurAccumStep src r x y i) a =
        addQ a (sumQ (((List.range (2 * r + 1)).filterMap
          (blurCellOpt src r x y i)).map (cellQ src))) := by
    intro a i
    rw [foldRange_congr _ _
      (fun acc k => addQ acc (match blurCellOpt src r x y i k with
        | some p => cellQ src p
        | none => (0, 0, 0, 0)))
      (blurAccumStep_eq src r x y i) a]
    rw [foldRange_addQ, sumQ_map_match]
  have hmain : blurAccum src r x y = sumQ ((blurCells src r x y).map (cellQ src)) := by
    unfold blurAccum
    rw [foldRange_congr _ _
      (fun acc i => addQ acc (sumQ (((List.range (2 * r + 1)).filterMap
        (blurCellOpt src r x y i)).map (cellQ src))))
      (fun a i => hinner a i) _]
    rw [foldRange_addQ, addQ_zero_left]
    unfold blurCells
    rw [List.map_flatMap, sumQ_flatMap]
  rw [hmain]
  refine Prod.ext ?_ (Prod.ext ?_ (Prod.ext ?_ ?_))
  · rw [sumQ_fst, List.map_map]
    rfl
  · rw [sumQ_snd, List.map_map]
    rfl
  · rw [sumQ_thd, List.map_map]
    rfl
  · rw [sumQ_cnt, List.map_map]
    show ((blurCells src r x y).map fun _ => 1).sum = (blurCells src r x y).length
    exact sum_map_one _

theorem blurCells_mem_bounds (src : Image) (r x y : Nat) (p : Nat × Nat)
    (hp : p ∈ blurCells src r x y) : p.1 < src.width ∧ p.2 < src.height := by
  unfold blurCells at hp
  rw [List.mem_flatMap] at hp
  obtain ⟨i, _, hmem⟩ := hp
  rw [List.mem_filterMap] at hmem
  obtain ⟨j, _, hj⟩ := hmem
  unfold blurCellOpt at hj
  dsimp only at hj
  split_ifs at hj with h
  injection hj with hinj
  subst hinj
  exact ⟨by omega, by omega⟩

/-- A concrete 2 x 1 buffer with two different pixels. -/
def imgBlur : Image := ⟨2, 1, fun x _ _ => 90 * x⟩

/-- C5: the blur maps strength in [0, 100] to the box radius
`max(1, floor(strength * 24 / 100) + 1)`; every output pixel of a completed run
is the sum of the in-bounds samples of the `(2r+1) x (2r+1)` window centred on
it divided by the actual in-bounds sample count; and strength 0 yields radius
1, a 3 x 3 box average that is not a no-op (witnessed on a concrete buffer). -/
theorem applyBlur_box_mean (img pre : Image) (cancel : Nat → Bool) (strength : Int)
    (hWf : img.Wf) (hc : ∀ k < img.height, cancel k = false)
    (x y c : Nat) (hx : x < img.width) (hy : y < img.height) (hcc : c < 3) :
    (0 ≤ strength → strength ≤ 100 →
      blurRadius strength = max 1 ((strength.toNat * 24) / 100 + 1)) ∧
    blurRadius 0 = 1 ∧
    ((applyBlur img pre cancel strength).get x y c =
      ((blurCells img (blurRadius strength) x y).map fun p => img.get p.1 p.2 c).sum /
        (blurCells img (blurRadius strength) x y).length) ∧
    ¬ (applyBlur imgBlur imgBlur cfalse 0).identical imgBlur := by
  refine ⟨?_, rfl, ?_, by decide⟩
  · intro h1 h2
    unfold blurRadius
    dsimp only
    have he : (max 0 (min 100 strength)).toNat = strength.toNat := by omega
    rw [he]
  · have hlen : 1 ≤ (blurCells img (blurRadius strength) x y).length := by
      have h := blurAccum_count_pos img (blurRadius strength) x y hx hy
      rw [blurAccum_eq] at h
      exact h
    have hcnt : blurDivisor img (blurRadius strength) x y =
        (blurCells img (blurRadius strength) x y).length := by
      unfold blurDivisor
      rw [blurAccum_eq]
      show max 1 (blurCells img (blurRadius strength) x y).length = _
      omega
    have hbnd : ∀ c', c' < 3 →
        ((blurCells img (blurRadius strength) x y).map fun p => img.get p.1 p.2 c').sum /
          (blurCells img (blurRadius strength) x y).length ≤ 255 := by
      intro c' hc'
      have hsum : ((blurCells img (blurRadius strength) x y).map
          fun p => img.get p.1 p.2 c').sum ≤
          255 * (blurCells img (blurRadius strength) x y).length := by
        have := List.sum_le_card_nsmul
          ((blurCells img (blurRadius strength) x y).map fun p => img.get p.1 p.2 c') 255
          (by
            intro v hv
            rw [List.mem_map] at hv
            obtain ⟨p, hp, hval⟩ := hv
            have hb := blurCells_mem_bounds img (blurRadius strength) x y p hp
            rw [← hval]
            exact hWf p.1 hb.1 p.2 hb.2 c' hc')
        rw [List.length_map] at this
        rw [Nat.mul_comm]
        simpa using this
      calc ((blurCells img (blurRadius strength) x y).map
            fun p => img.get p.1 p.2 c').sum /
            (blurCells img (blurRadius strength) x y).length
          ≤ 255 * (blurCells img (blurRadius strength) x y).length /
            (blurCells img (blurRadius strength) x y).length :=
            Nat.div_le_div_right hsum
        _ = 255 := Nat.mul_div_cancel 255 (by omega)
    unfold applyBlur
    rw [runRowsAux_completes _ _ _ _ _ _
      (fun k hk => by rw [Nat.zero_add]; exact hc k (by omega)),
      runRowsPlain_pixRow_get, if_pos ⟨hx, by omega, by omega, hcc⟩]
    rcases c with _ | _ | _ | c
    · show ((blurAccum img (blurRadius strength) x y).1 /
        blurDivisor img (blurRadius strength) x y) % 256 = _
      rw [hcnt, blurAccum_eq]
      show (((blurCells img (blurRadius strength) x y).map
        fun p => img.get p.1 p.2 0).sum /
        (blurCells img (blurRadius strength) x y).length) % 256 = _
      exact Nat.mod_eq_of_lt (by have := hbnd 0 (by omega); omega)
    · show ((blurAccum img (blurRadius strength) x y).2.1 /
        blurDivisor img (blurRadius strength) x y) % 256 = _
      rw [hcnt, blurAccum_eq]
      show (((blurCells img (blurRadius strength) x y).map
        fun p => img.get p.1 p.2 1).sum /
        (blurCells img (blurRadius strength) x y).length) % 256 = _
      exact Nat.mod_eq_of_lt (by have := hbnd 1 (by omega); omega)
    · show ((blurAccum img (blurRadius strength) x y).2.2.1 /
        blurDivisor img (blurRadius strength) x y) % 256 = _
      rw [hcnt, blurAccum_eq]
      show (((blurCells img (blurRadius strength) x y).map
        fun p => img.get p.1 p.2 2).sum /
        (blurCells img (blurRadius strength) x y).length) % 256 = _
      exact Nat.mod_eq_of_lt (by have := hbnd 2 (by omega); omega)
    · omega

theorem applyBlur_box_mean_witness :
    Image.Wf img44 ∧ (∀ k < img44.height, cfalse k = false) ∧
    (applyBlur img44 img44 cfalse 50).get 1 1 0 =
      ((blurCells img44 (blurRadius 50) 1 1).map fun p => img44.get p.1 p.2 0).sum /
        (blurCells img44 (blurRadius 50) 1 1).length :=
  ⟨by decide, by decide,
    (applyBlur_box_mean img44 img44 cfalse 50 (by decide) (by decide) 1 1 0
      (by decide) (by decide) (by decide)).2.2.1⟩

/-- The 5 x 5 Gaussian kernel of `applyEdges` (standard binomial weights). -/
def gaussKernel (ky kx : Nat) : Nat :=
  (([[1, 4, 6, 4, 1], [4, 16, 24, 16, 4], [6, 24, 36, 24, 6],
    [4, 16, 24, 16, 4], [1, 4, 6, 4, 1]] : List (List Nat)).getD ky []).getD kx 0

/-- The horizontal 3 x 3 Sobel kernel of `applyEdges`. -/
def sobelXK (ky kx : Nat) : Int :=
  (([[-1, 0, 1], [-2, 0, 2], [-1, 0, 1]] : List (List Int)).getD ky []).getD kx 0

/-- The vertical 3 x 3 Sobel kernel of `applyEdges`. -/
def sobelYK (ky kx : Nat) : Int :=
  (([[-1, -2, -1], [0, 0, 0], [1, 2, 1]] : List (List Int)).getD ky []).getD kx 0

/-- Fuel-indexed base-2 logarithm: `log2F fuel n` is the position of the
highest set bit of `n` whenever `fuel` is at least that position (structural
recursion on the fuel, so the kernel can evaluate it by `decide`). -/
def log2F : Nat → Nat → Nat
  | 0, _ => 0
  | fuel + 1, n => if 2 ≤ n then log2F fuel (n / 2) + 1 else 0

/-- IEEE-754 double rounding on fixed-point values: the argument is a
nonnegative binary fixed-point number (here always scaled by 2^120); the
result keeps the 53 most significant bits and rounds to nearest, ties to
even. On the value range arising in the luma computation (0 or between 2^118
and 2^130) the exponent stays in the normal range and 200 units of fuel
always suffice for the logarithm. -/
def roundDoubleF (vf : Nat) : Nat :=
  if vf = 0 then 0 else
  let l := log2F 200 vf
  let s := l - 52
  let n0 := vf / 2 ^ s
  let rem := vf % 2 ^ s
  let half := 2 ^ s / 2
  let mantissa :=
    if rem < half then n0
    else if half < rem then n0 + 1
    else if n0 % 2 = 0 then n0 else n0 + 1
  mantissa * 2 ^ s

/-- Bit-exact model of the luma expression
`(int)(0.299 * r + 0.587 * g + 0.114 * b)` of `ImageFilters::applyEdges`,
evaluated left to right in IEEE double precision. All values are integers
scaled by 2^120; the three constants are the exact values of the double
literals (`0.299 = 5386305154335113 / 2^54`, `0.587 = 2643612981266481 / 2^52`,
`0.114 = 8214565720323785 / 2^56`); each product and each sum is the exact
fixed-point value rounded to the nearest double by `roundDoubleF`; the final
`(int)` cast truncates the scaled result. -/
def lumaDouble (r g b : Nat) : Nat :=
  let t1 := roundDoubleF (r * 5386305154335113 * 2 ^ 66)
  let t2 := roundDoubleF (g * 2643612981266481 * 2 ^ 68)
  let t3 := roundDoubleF (t1 + t2)
  let t4 := roundDoubleF (b * 8214565720323785 * 2 ^ 64)
  let t5 := roundDoubleF (t3 + t4)
  t5 / 2 ^ 120

/-- Stage 1 of `ImageFilters::applyEdges`: luma grayscale
`(int)(0.299 * r + 0.587 * g + 0.114 * b)`, the double expression computed
bit-exactly by `lumaDouble` and written to all three channels of a fresh
buffer. -/
def edgesGray (src : Image) : Image :=
  renderRect 0 src.width 0 src.height
    (fun x y =>
      let grayVal := lumaDouble (src.get x y 0) (src.get x y 1) (src.get x y 2)
      some (grayVal, grayVal, grayVal))
    (Image.mkFresh src.width src.height)

/-- Stage 2 of `ImageFilters::applyEdges`: 5 x 5 Gaussian convolution divided
by the kernel sum 256, over the interior `2 <= x < width-2`,
`2 <= y < height-2` only; the border of the fresh buffer is never written.
Kernel indices are shifted from `[-2, 2]` to `[0, 4]`. -/
def edgesBlur (gray : Image) : Image :=
  renderRect 2 (gray.width - 4) 2 (gray.height - 4)
    (fun x y =>
      let sum := foldRange 5 (fun s ky => foldRange 5 (fun s2 kx =>
        s2 + gray.get (x + kx - 2) (y + ky - 2) 0 * gaussKernel ky kx) s) 0
      let blurredVal := sum / 256
      some (blurredVal, blurredVal, blurredVal))
    (Image.mkFresh gray.width gray.height)

/-- Stage 3 of `ImageFilters::applyEdges`: 3 x 3 Sobel over the interior
`1 <= x < width-1`, `1 <= y < height-1`; magnitude `(int)std::sqrt(gx^2+gy^2)`
modelled as `Nat.sqrt` (exact on this range), clamped by
`min(255, max(0, m))`, then thresholded: `magnitude > 50 -> 0` (black) else
`255` (white). The source accumulates `gx` and `gy` in one loop; the model
splits it into one fold per sum, adding the same terms in the same order. The
one-pixel border of the fresh buffer is never written. -/
def edgesSobel (blurred : Image) : Image :=
  renderRect 1 (blurred.width - 2) 1 (blurred.height - 2)
    (fun x y =>
      let gx := foldRange 3 (fun s ky => foldRange 3 (fun s2 kx =>
        s2 + (blurred.get (x + kx - 1) (y + ky - 1) 0 : Int) * sobelXK ky kx) s) 0
      let gy := foldRange 3 (fun s ky => foldRange 3 (fun s2 kx =>
        s2 + (blurred.get (x + kx - 1) (y + ky - 1) 0 : Int) * sobelYK ky kx) s) 0
      let magnitude := min 255 (max 0 (Nat.sqrt (gx * gx + gy * gy).toNat))
      let edgeVal := if magnitude > 50 then 0 else 255
      some (edgeVal, edgeVal, edgeVal))
    (Image.mkFresh blurred.width blurred.height)

/-- Embedded from `ImageFilters::applyEdges`: grayscale, Gaussian blur, Sobel
threshold, then `currentImage = edge`. -/
def applyEdges (currentImage : Image) : Image :=
  edgesSobel (edgesBlur (edgesGray currentImage))

theorem foldRange_sum {M : Type} [AddCommMonoid M] (n : Nat) (g : Nat → M) (a : M) :
    foldRange n (fun s k => s + g k) a = a + ∑ k ∈ Finset.range n, g k := by
  induction n with
  | zero => simp
  | succ n ih => rw [foldRange_succ, ih, Finset.sum_range_succ, add_assoc]

theorem edgesGray_width (src : Image) : (edgesGray src).width = src.width := by
  unfold edgesGray
  rw [renderRect_width]
  rfl

theorem edgesGray_height (src : Image) : (edgesGray src).height = src.height := by
  unfold edgesGray
  rw [renderRect_height]
  rfl

theorem edgesBlur_width (gray : Image) : (edgesBlur gray).width = gray.width := by
  unfold edgesBlur
  rw [renderRect_width]
  rfl

theorem edgesBlur_height (gray : Image) : (edgesBlur gray).height = gray.height := by
  unfold edgesBlur
  rw [renderRect_height]
  rfl

theorem edgesSobel_width (blurred : Image) : (edgesSobel blurred).width = blurred.width := by
  unfold edgesSobel
  rw [renderRect_width]
  rfl

theorem edgesSobel_height (blurred : Image) :
    (edgesSobel blurred).height = blurred.height := by
  unfold edgesSobel
  rw [renderRect_height]
  rfl

theorem edgesGray_get (src : Image) (x y c : Nat)
    (hx : x < src.width) (hy : y < src.height) (hc : c < 3) :
    (edgesGray src).get x y c =
      lumaDouble (src.get x y 0) (src.get x y 1) (src.get x y 2) % 256 := by
  unfold edgesGray
  rw [renderRect_get, if_pos ⟨by omega, by omega, by omega, by omega, hc⟩]
  show chan c (lumaDouble (src.get x y 0) (src.get x y 1) (src.get x y 2),
    lumaDouble (src.get x y 0) (src.get x y 1) (src.get x y 2),
    lumaDouble (src.get x y 0) (src.get x y 1) (src.get x y 2)) % 256 = _
  rw [chan_triple]

theorem edgesGray_le (src : Image) (x y : Nat)
    (hx : x < src.width) (hy : y < src.height) :
    (edgesGray src).get x y 0 ≤ 255 := by
  rw [edgesGray_get src x y 0 hx hy (by omega)]
  have := Nat.mod_lt (lumaDouble (src.get x y 0) (src.get x y 1) (src.get x y 2))
    (show 0 < 256 by omega)
  omega

theorem optVal_some (p : Nat × Nat × Nat) (c fb : Nat) :
    optVal (some p) c fb = chan c p % 256 := rfl

theorem edgesBlur_get_interior (gray : Image)
    (hG : ∀ x < gray.width, ∀ y < gray.height, gray.get x y 0 ≤ 255)
    (x y c : Nat) (hx1 : 2 ≤ x) (hx2 : x < gray.width - 2)
    (hy1 : 2 ≤ y) (hy2 : y < gray.height - 2) (hc : c < 3) :
    (edgesBlur gray).get x y c =
      (∑ ky ∈ Finset.range 5, ∑ kx ∈ Finset.range 5,
        gray.get (x + kx - 2) (y + ky - 2) 0 * gaussKernel ky kx) / 256 := by
  have hksum : (∑ ky ∈ Finset.range 5, ∑ kx ∈ Finset.range 5, gaussKernel ky kx) = 256 := by
    decide
  have hbound : (∑ ky ∈ Finset.range 5, ∑ kx ∈ Finset.range 5,
      gray.get (x + kx - 2) (y + ky - 2) 0 * gaussKernel ky kx) ≤ 255 * 256 := by
    calc (∑ ky ∈ Finset.range 5, ∑ kx ∈ Finset.range 5,
        gray.get (x + kx - 2) (y + ky - 2) 0 * gaussKernel ky kx)
        ≤ ∑ ky ∈ Finset.range 5, ∑ kx ∈ Finset.range 5, 255 * gaussKernel ky kx := by
          refine Finset.sum_le_sum fun ky hky => Finset.sum_le_sum fun kx hkx => ?_
          have hky5 : ky < 5 := Finset.mem_range.mp hky
          have hkx5 : kx < 5 := Finset.mem_range.mp hkx
          exact Nat.mul_le_mul_right _ (hG _ (by omega) _ (by omega))
      _ = 255 * ∑ ky ∈ Finset.range 5, ∑ kx ∈ Finset.range 5, gaussKernel ky kx := by
          rw [Finset.mul_sum]
          refine Finset.sum_congr rfl fun ky _ => ?_
          rw [Finset.mul_sum]
      _ = 255 * 256 := by rw [hksum]
  unfold edgesBlur
  rw [renderRect_get, if_pos ⟨by omega, by omega, by omega, by omega, hc⟩]
  dsimp only
  rw [optVal_some, chan_triple]
  rw [foldRange_congr 5 _
    (fun s ky => s + ∑ kx ∈ Finset.range 5,
      gray.get (x + kx - 2) (y + ky - 2) 0 * gaussKernel ky kx)
    (fun s ky => by rw [foldRange_sum]) 0]
  rw [foldRange_sum, Nat.zero_add]
  exact Nat.mod_eq_of_lt (by
    have : (∑ ky ∈ Finset.range 5, ∑ kx ∈ Finset.range 5,
      gray.get (x + kx - 2) (y + ky - 2) 0 * gaussKernel ky kx) / 256 ≤ 255 := by
      calc _ ≤ 255 * 256 / 256 := Nat.div_le_div_right hbound
        _ = 255 := by omega
    omega)

theorem edgesBlur_get_border (gray : Image) (x y c : Nat)
    (hout : x < 2 ∨ gray.width - 2 ≤ x ∨ y < 2 ∨ gray.height - 2 ≤ y) :
    (edgesBlur gray).get x y c = 0 := by
  unfold edgesBlur
  rw [renderRect_get, if_neg (by omega)]
  rfl

/-- Spec-side formulation of the horizontal Sobel gradient at `(x, y)`. -/
def sobelGX (blurred : Image) (x y : Nat) : Int :=
  ∑ ky ∈ Finset.range 3, ∑ kx ∈ Finset.range 3,
    (blurred.get (x + kx - 1) (y + ky - 1) 0 : Int) * sobelXK ky kx

/-- Spec-side formulation of the vertical Sobel gradient at `(x, y)`. -/
def sobelGY (blurred : Image) (x y : Nat) : Int :=
  ∑ ky ∈ Finset.range 3, ∑ kx ∈ Finset.range 3,
    (blurred.get (x + kx - 1) (y + ky - 1) 0 : Int) * sobelYK ky kx

theorem edgesSobel_get_interior (blurred : Image) (x y c : Nat)
    (hx1 : 1 ≤ x) (hx2 : x < blurred.width - 1)
    (hy1 : 1 ≤ y) (hy2 : y < blurred.height - 1) (hc : c < 3) :
    (edgesSobel blurred).get x y c =
      if min 255 (max 0 (Nat.sqrt (sobelGX blurred x y * sobelGX blurred x y +
          sobelGY blurred x y * sobelGY blurred x y).toNat)) > 50
      then 0 else 255 := by
  have hgx : foldRange 3 (fun s ky => foldRange 3 (fun s2 kx =>
      s2 + (blurred.get (x + kx - 1) (y + ky - 1) 0 : Int) * sobelXK ky kx) s) 0 =
      sobelGX blurred x y := by
    rw [foldRange_congr 3
      (fun s ky => foldRange 3 (fun s2 kx =>
        s2 + (blurred.get (x + kx - 1) (y + ky - 1) 0 : Int) * sobelXK ky kx) s)
      (fun s ky => s + ∑ kx ∈ Finset.range 3,
        (blurred.get (x + kx - 1) (y + ky - 1) 0 : Int) * sobelXK ky kx)
      (fun s ky => by dsimp only; rw [foldRange_sum]) 0]
    rw [foldRange_sum, zero_add]
    rfl
  have hgy : foldRange 3 (fun s ky => foldRange 3 (fun s2 kx =>
      s2 + (blurred.get (x + kx - 1) (y + ky - 1) 0 : Int) * sobelYK ky kx) s) 0 =
      sobelGY blurred x y := by
    rw [foldRange_congr 3
      (fun s ky => foldRange 3 (fun s2 kx =>
        s2 + (blurred.get (x + kx - 1) (y + ky - 1) 0 : Int) * sobelYK ky kx) s)
      (fun s ky => s + ∑ kx ∈ Finset.range 3,
        (blurred.get (x + kx - 1) (y + ky - 1) 0 : Int) * sobelYK ky kx)
      (fun s ky => by dsimp only; rw [foldRange_sum]) 0]
    rw [foldRange_sum, zero_add]
    rfl
  unfold edgesSobel
  rw [renderRect_get, if_pos ⟨by omega, by omega, by omega, by omega, hc⟩]
  dsimp only
  rw [optVal_some, chan_triple, hgx, hgy]
  by_cases hthr : min 255 (max 0 (Nat.sqrt (sobelGX blurred x y * sobelGX blurred x y +
      sobelGY blurred x y * sobelGY blurred x y).toNat)) > 50
  · rw [if_pos hthr]
  · rw [if_neg hthr]

theorem edgesSobel_get_ring (blurred : Image) (x y c : Nat)
    (hx : x < blurred.width) (hy : y < blurred.height)
    (hring : x = 0 ∨ y = 0 ∨ x = blurred.width - 1 ∨ y = blurred.height - 1) :
    (edgesSobel blurred).get x y c = 0 := by
  unfold edgesSobel
  rw [renderRect_get, if_neg (by omega)]
  rfl

/-- C6 (corrected): edge detection computes grayscale with luma weights
0.299 R + 0.587 G + 0.114 B — the double expression evaluated left to right
in IEEE double precision (`lumaDouble`), which differs from the exact
weighted sum `(299 R + 587 G + 114 B) / 1000` on some pixels — then a 5 x 5
Gaussian blur with kernel sum 256 over the interior only — in particular the
one-pixel border is left unprocessed by the blur pass and keeps the
deterministic fill 0 of the fresh buffer — then 3 x 3 Sobel gradients with
magnitude sqrt(gx^2 + gy^2) clamped to [0, 255] and a binary threshold at 50:
magnitude > 50 maps to black (0), otherwise white (255); the outermost
one-pixel ring is untouched by Sobel and keeps the fresh canvas value 0. -/
theorem applyEdges_pipeline (img : Image) (x y c : Nat)
    (hx : x < img.width) (hy : y < img.height) (hc : c < 3) :
    ((applyEdges img).width = img.width ∧ (applyEdges img).height = img.height) ∧
    ((edgesGray img).get x y c =
      lumaDouble (img.get x y 0) (img.get x y 1) (img.get x y 2) % 256) ∧
    ((∑ ky ∈ Finset.range 5, ∑ kx ∈ Finset.range 5, gaussKernel ky kx) = 256) ∧
    (2 ≤ x → x < img.width - 2 → 2 ≤ y → y < img.height - 2 →
      (edgesBlur (edgesGray img)).get x y c =
        (∑ ky ∈ Finset.range 5, ∑ kx ∈ Finset.range 5,
          (edgesGray img).get (x + kx - 2) (y + ky - 2) 0 * gaussKernel ky kx) / 256) ∧
    ((x = 0 ∨ y = 0 ∨ x = img.width - 1 ∨ y = img.height - 1) →
      (edgesBlur (edgesGray img)).get x y c = 0) ∧
    (1 ≤ x → x < img.width - 1 → 1 ≤ y → y < img.height - 1 →
      (applyEdges img).get x y c =
        if min 255 (max 0 (Nat.sqrt (sobelGX (edgesBlur (edgesGray img)) x y *
            sobelGX (edgesBlur (edgesGray img)) x y +
            sobelGY (edgesBlur (edgesGray img)) x y *
            sobelGY (edgesBlur (edgesGray img)) x y).toNat)) > 50
        then 0 else 255) ∧
    ((x = 0 ∨ y = 0 ∨ x = img.width - 1 ∨ y = img.height - 1) →
      (applyEdges img).get x y c = 0) := by
  have hgw := edgesGray_width img
  have hgh := edgesGray_height img
  have hbw : (edgesBlur (edgesGray img)).width = img.width := by
    rw [edgesBlur_width, hgw]
  have hbh : (edgesBlur (edgesGray img)).height = img.height := by
    rw [edgesBlur_height, hgh]
  refine ⟨⟨?_, ?_⟩, edgesGray_get img x y c hx hy hc, by decide, ?_, ?_, ?_, ?_⟩
  · unfold applyEdges
    rw [edgesSobel_width, hbw]
  · unfold applyEdges
    rw [edgesSobel_height, hbh]
  · intro h1 h2 h3 h4
    exact edgesBlur_get_interior (edgesGray img)
      (fun a ha b hb => by
        rw [hgw] at ha
        rw [hgh] at hb
        exact edgesGray_le img a b ha hb)
      x y c h1 (by rw [hgw]; exact h2) h3 (by rw [hgh]; exact h4) hc
  · intro hring
    exact edgesBlur_get_border (edgesGray img) x y c (by rw [hgw, hgh]; omega)
  · intro h1 h2 h3 h4
    unfold applyEdges
    exact edgesSobel_get_interior (edgesBlur (edgesGray img)) x y c
      h1 (by rw [hbw]; exact h2) h3 (by rw [hbh]; exact h4) hc
  · intro hring
    unfold applyEdges
    exact edgesSobel_get_ring (edgesBlur (edgesGray img)) x y c
      (by rw [hbw]; exact hx) (by rw [hbh]; exact hy) (by rw [hbw, hbh]; omega)

/-- A concrete 6 x 6 buffer with varied pixels. -/
def imgC6 : Image := ⟨6, 6, fun x y c => (20 * x + 30 * y + 7 * c) % 256⟩

theorem applyEdges_pipeline_witness :
    2 < imgC6.width ∧ 2 < imgC6.height ∧
    ((edgesBlur (edgesGray imgC6)).get 2 2 0 =
      (∑ ky ∈ Finset.range 5, ∑ kx ∈ Finset.range 5,
        (edgesGray imgC6).get (2 + kx - 2) (2 + ky - 2) 0 * gaussKernel ky kx) / 256) ∧
    (applyEdges imgC6).get 0 3 0 = 0 := by
  refine ⟨by decide, by decide, ?_, ?_⟩
  · exact (applyEdges_pipeline imgC6 2 2 0 (by decide) (by decide)
      (by decide)).2.2.2.1 (by decide) (by decide) (by decide) (by decide)
  · exact (applyEdges_pipeline imgC6 0 3 0 (by decide) (by decide)
      (by decide)).2.2.2.2.2.2 (Or.inl rfl)

/-- A 1 x 1 buffer with every sample equal to 1. -/
def img111 : Image := ⟨1, 1, fun _ _ _ => 1⟩

set_option maxRecDepth 8000 in
/-- On the all-ones pixel the IEEE double evaluation of the luma expression in
`ImageFilters::applyEdges` yields gray value 0 — the double sum
`0.299 + 0.587 + 0.114` rounds to just below 1 — while the exact rational
truncation of the weighted sum yields 1: the grayscale stage is not the exact
weighted sum. -/
theorem applyEdges_luma_not_exact :
    (edgesGray img111).get 0 0 0 = 0 ∧
    (299 * img111.get 0 0 0 + 587 * img111.get 0 0 1 +
      114 * img111.get 0 0 2) / 1000 = 1 := by
  constructor
  · decide
  · decide

end PhotoSmith
